import Mathlib

set_option maxHeartbeats 1000000

/-!
Verification development for an interactive calculator with a persisted
calculation history.

The development shallowly embeds the core of the program:
* the `Calculation` record and its string codec (`Calculation.to_dict` /
  `Calculation.from_dict`), including a faithful model of Python's
  `Decimal` string round trip and `datetime.isoformat` round trip;
* the two storage backends (`MemoryRepository`, `CSVRepository`) over flat
  records;
* the history service (`CalculationHistory`);
* the command handler with its `difflib.get_close_matches`-based
  suggestion fallback;
* the binary-operation executor and calculator coordination layer.

Strings are modelled as `List Char`; Python exceptions are modelled by the
`PyErr` inductive and fallible code returns `Except PyErr _` or `Option _`.
-/

/-- Model of Python exceptions relevant to this program, flattened into one
inductive (subclass structure is not needed by any claim). -/
inductive PyErr where
  | valueError
  | keyError
  | invalidOperation
  | zeroDivisionError
  | attributeError
  | emptyRepositoryError
  | itemNotFoundError
  | emptyHistoryError
  | calculationNotFoundError
  | suggestionFailed
  deriving DecidableEq, Repr

/-! ## Decimal digit strings

Python renders and parses `Decimal` values through base-10 digit strings.
The helpers below model single digits and big-endian digit strings. -/

/-- Character for a single decimal digit value (0 ↦ '0', …, 9 ↦ '9'). -/
def digitChar (n : Nat) : Char := Char.ofNat (48 + n)

/-- Numeric value of a decimal digit character. -/
def digitVal (c : Char) : Nat := c.toNat - 48

/-- Little-endian base-10 digits, computed with explicit fuel so that the
definition evaluates inside the kernel (structural recursion). -/
def digitsAuxF : Nat → Nat → List Nat
  | 0, _ => []
  | _ + 1, 0 => []
  | fuel + 1, n + 1 => (n + 1) % 10 :: digitsAuxF fuel ((n + 1) / 10)

lemma digitsAuxF_eq_digits (fuel n : Nat) (h : n ≤ fuel) :
    digitsAuxF fuel n = Nat.digits 10 n := by
  induction fuel generalizing n with
  | zero =>
    interval_cases n
    rw [Nat.digits_zero]
    rfl
  | succ f ih =>
    cases n with
    | zero =>
      rw [Nat.digits_zero]
      rfl
    | succ m =>
      show (m + 1) % 10 :: digitsAuxF f ((m + 1) / 10) = _
      rw [ih ((m + 1) / 10) (by omega),
        Nat.digits_def' (b := 10) (by norm_num) (Nat.succ_pos m)]

/-- Big-endian digit characters of a natural number; `0` renders as `"0"`.
This is how Python renders a `Decimal` coefficient (no leading zeros). -/
def coeffDigits (n : Nat) : List Char :=
  if n = 0 then ['0'] else ((digitsAuxF n n).reverse).map digitChar

lemma coeffDigits_eq (n : Nat) :
    coeffDigits n = if n = 0 then ['0'] else ((Nat.digits 10 n).reverse).map digitChar := by
  unfold coeffDigits
  rw [digitsAuxF_eq_digits n n le_rfl]

/-- Value of a big-endian digit-character string. -/
def digitsToNat (l : List Char) : Nat :=
  l.foldl (fun a c => 10 * a + digitVal c) 0

lemma digitVal_digitChar {d : Nat} (h : d < 10) : digitVal (digitChar d) = d := by
  interval_cases d <;> rfl

lemma isDigit_digitChar {d : Nat} (h : d < 10) : (digitChar d).isDigit = true := by
  interval_cases d <;> rfl

lemma isDigit_not_special {c : Char} (h : c.isDigit = true) :
    c ≠ 'E' ∧ c ≠ 'e' ∧ c ≠ '.' ∧ c ≠ ',' ∧ c ≠ '-' ∧ c ≠ '+' := by
  refine ⟨?_, ?_, ?_, ?_, ?_, ?_⟩ <;> rintro rfl <;> exact absurd h (by decide)

lemma foldl_digitsToNat_shift (l : List Char) (a : Nat) :
    l.foldl (fun x c => 10 * x + digitVal c) a = a * 10 ^ l.length + digitsToNat l := by
  induction l generalizing a with
  | nil => simp [digitsToNat]
  | cons c t ih =>
    show t.foldl _ (10 * a + digitVal c) = _
    rw [ih (10 * a + digitVal c)]
    have h0 : digitsToNat (c :: t) = (digitVal c) * 10 ^ t.length + digitsToNat t := by
      show t.foldl _ (10 * 0 + digitVal c) = _
      rw [ih (10 * 0 + digitVal c)]
      ring_nf
    rw [h0]
    simp [List.length_cons, pow_succ]
    ring

lemma digitsToNat_append (l r : List Char) :
    digitsToNat (l ++ r) = digitsToNat l * 10 ^ r.length + digitsToNat r := by
  unfold digitsToNat
  rw [List.foldl_append]
  exact foldl_digitsToNat_shift r _

lemma digitsToNat_replicate_zero (k : Nat) :
    digitsToNat (List.replicate k '0') = 0 := by
  induction k with
  | zero => rfl
  | succ n ih =>
    rw [List.replicate_succ]
    show List.foldl _ (10 * 0 + digitVal '0') _ = 0
    have : (10 * 0 + digitVal '0') = 0 := by decide
    rw [this]
    exact ih

lemma digitsToNat_zeros_append (k : Nat) (l : List Char) :
    digitsToNat (List.replicate k '0' ++ l) = digitsToNat l := by
  rw [digitsToNat_append, digitsToNat_replicate_zero]
  simp

lemma digitsToNat_revmap (L : List Nat) (h : ∀ d ∈ L, d < 10) :
    digitsToNat (L.reverse.map digitChar) = Nat.ofDigits 10 L := by
  induction L with
  | nil => rfl
  | cons d t ih =>
    rw [List.reverse_cons, List.map_append, digitsToNat_append]
    have hd : d < 10 := h d (by simp)
    have ht : ∀ x ∈ t, x < 10 := fun x hx => h x (by simp [hx])
    have h1 : digitsToNat [digitChar d] = d := by
      show 10 * 0 + digitVal (digitChar d) = d
      rw [digitVal_digitChar hd]
      omega
    simp only [List.map_cons, List.map_nil, List.length_cons, List.length_nil]
    rw [h1, ih ht, Nat.ofDigits_cons]
    ring

lemma digitsToNat_coeffDigits (n : Nat) : digitsToNat (coeffDigits n) = n := by
  rw [coeffDigits_eq]
  by_cases h : n = 0
  · subst h
    simp only [if_pos rfl]
    decide
  · rw [if_neg h, digitsToNat_revmap _ (fun d hd => Nat.digits_lt_base (by norm_num) hd),
      Nat.ofDigits_digits]

lemma coeffDigits_ne_nil (n : Nat) : coeffDigits n ≠ [] := by
  rw [coeffDigits_eq]
  by_cases h : n = 0
  · simp [h]
  · rw [if_neg h]
    intro hc
    have h2 := (Nat.digits_ne_nil_iff_ne_zero (b := 10)).mpr h
    simp at hc
    exact h2 hc

lemma coeffDigits_all_digit (n : Nat) : ∀ c ∈ coeffDigits n, c.isDigit = true := by
  rw [coeffDigits_eq]
  by_cases h : n = 0
  · simp [h]
  · rw [if_neg h]
    intro c hc
    rw [List.mem_map] at hc
    obtain ⟨d, hd, rfl⟩ := hc
    rw [List.mem_reverse] at hd
    exact isDigit_digitChar (Nat.digits_lt_base (by norm_num) hd)

lemma coeffDigits_length_le {n w : Nat} (hw : 1 ≤ w) (h : n < 10 ^ w) :
    (coeffDigits n).length ≤ w := by
  rw [coeffDigits_eq]
  by_cases h0 : n = 0
  · simp [h0, hw]
  · rw [if_neg h0]
    simp only [List.length_map, List.length_reverse]
    rw [Nat.digits_len 10 n (by norm_num) h0]
    have := (Nat.lt_pow_iff_log_lt (b := 10) (by norm_num) h0).mp h
    omega

/-! ## Decimal values

Python's `decimal.Decimal` (finite values) is a sign, a coefficient and an
exponent; the value is `(-1)^sign * coeff * 10^exp`.  Parsing normalises
away leading coefficient zeros, so the coefficient is modelled as a `Nat`.
`Decimal.str` implements the to-scientific-string algorithm used by
`str(Decimal)`; `Decimal.parse` implements parsing of finite decimal
literals as done by the `Decimal` constructor. -/

structure Decimal where
  sign : Bool
  coeff : Nat
  exp : Int
  deriving DecidableEq, Repr

/-- Exponent suffix of scientific notation: explicit `+`/`-` sign followed
by the digits of the absolute value, exactly as Python prints it. -/
def expChars (z : Int) : List Char :=
  (if z < 0 then ['-'] else ['+']) ++ coeffDigits z.natAbs

/-- Unsigned part of Python's to-scientific-string conversion: plain
notation when the exponent is ≤ 0 and the adjusted exponent is ≥ -6,
scientific notation otherwise. -/
def decCore (coeff : Nat) (exp : Int) : List Char :=
  if exp ≤ 0 ∧ -6 ≤ exp + ((coeffDigits coeff).length : Int) - 1 then
    if exp = 0 then coeffDigits coeff
    else if exp + ((coeffDigits coeff).length : Int) - 1 < 0 then
      '0' :: '.' ::
        (List.replicate ((-(exp + ((coeffDigits coeff).length : Int) - 1)).toNat - 1) '0' ++
          coeffDigits coeff)
    else
      (coeffDigits coeff).take (((coeffDigits coeff).length : Int) + exp).toNat ++
        '.' :: (coeffDigits coeff).drop (((coeffDigits coeff).length : Int) + exp).toNat
  else
    match coeffDigits coeff with
    | [] => []
    | d :: rest =>
      if rest.isEmpty then
        d :: 'E' :: expChars (exp + ((coeffDigits coeff).length : Int) - 1)
      else
        d :: '.' :: rest ++ 'E' :: expChars (exp + ((coeffDigits coeff).length : Int) - 1)

/-- Model of `str(d)` for a finite `Decimal` value `d`. -/
def Decimal.str (x : Decimal) : List Char :=
  (if x.sign then ['-'] else []) ++ decCore x.coeff x.exp

/-- Split a character list into the part before the first `E`/`e` and,
when an `E`/`e` is present, the part after it. -/
def splitAtE (l : List Char) : List Char × Option (List Char) :=
  match l with
  | [] => ([], none)
  | c :: rest =>
    if c = 'E' ∨ c = 'e' then ([], some rest)
    else (c :: (splitAtE rest).1, (splitAtE rest).2)

lemma splitAtE_cons_nonE {c : Char} (h : ¬(c = 'E' ∨ c = 'e')) (t : List Char) :
    splitAtE (c :: t) = (c :: (splitAtE t).1, (splitAtE t).2) := by
  simp [splitAtE, h]

/-- Parse a digit run (the exponent magnitude); fails on empty or
non-digit input. -/
def parseExpDigits (l : List Char) : Option Int :=
  if l ≠ [] ∧ l.all Char.isDigit then some (digitsToNat l) else none

/-- Parse an optionally signed exponent. -/
def parseExp (l : List Char) : Option Int :=
  match l with
  | '+' :: rest => parseExpDigits rest
  | '-' :: rest => (parseExpDigits rest).map (fun n => -n)
  | rest => parseExpDigits rest

/-- Parse the mantissa: digits with at most one point, at least one digit.
Returns the coefficient and the number of fractional digits. -/
def parseMantissa (l : List Char) : Option (Nat × Nat) :=
  match l.dropWhile Char.isDigit with
  | [] =>
    if l.takeWhile Char.isDigit = [] then none
    else some (digitsToNat (l.takeWhile Char.isDigit), 0)
  | '.' :: rest2 =>
    if rest2.dropWhile Char.isDigit = [] ∧
        (l.takeWhile Char.isDigit ≠ [] ∨ rest2.takeWhile Char.isDigit ≠ []) then
      some (digitsToNat (l.takeWhile Char.isDigit ++ rest2.takeWhile Char.isDigit),
        (rest2.takeWhile Char.isDigit).length)
    else none
  | _ => none

/-- Parse an unsigned finite decimal literal. -/
def decParseAux (l : List Char) : Option Decimal :=
  match parseMantissa (splitAtE l).1 with
  | none => none
  | some (c, fracLen) =>
    match (splitAtE l).2 with
    | none => some ⟨false, c, -(fracLen : Int)⟩
    | some es =>
      match parseExp es with
      | none => none
      | some e => some ⟨false, c, e - fracLen⟩

/-- Model of `Decimal(s)` on finite decimal literals: optional sign, then
an unsigned literal.  Returns `none` where Python raises
`InvalidOperation`. -/
def Decimal.parse (l : List Char) : Option Decimal :=
  match l with
  | '-' :: rest => (decParseAux rest).map (fun d => { d with sign := true })
  | '+' :: rest => decParseAux rest
  | rest => decParseAux rest

/-! ## Decimal string round trip -/

lemma takeWhile_digit_all {l : List Char} (h : ∀ c ∈ l, c.isDigit = true) :
    l.takeWhile Char.isDigit = l := by
  induction l with
  | nil => rfl
  | cons c t ih =>
    rw [List.takeWhile_cons, if_pos (h c (by simp)), ih (fun x hx => h x (by simp [hx]))]

lemma dropWhile_digit_all {l : List Char} (h : ∀ c ∈ l, c.isDigit = true) :
    l.dropWhile Char.isDigit = [] := by
  induction l with
  | nil => rfl
  | cons c t ih =>
    rw [List.dropWhile_cons, if_pos (h c (by simp))]
    exact ih (fun x hx => h x (by simp [hx]))

lemma takeWhile_digit_append {l r : List Char} {c : Char}
    (hl : ∀ x ∈ l, x.isDigit = true) (hc : c.isDigit = false) :
    (l ++ c :: r).takeWhile Char.isDigit = l := by
  induction l with
  | nil => simp [List.takeWhile_cons, hc]
  | cons a t ih =>
    rw [List.cons_append, List.takeWhile_cons, if_pos (hl a (by simp)),
      ih (fun x hx => hl x (by simp [hx]))]

lemma dropWhile_digit_append {l r : List Char} {c : Char}
    (hl : ∀ x ∈ l, x.isDigit = true) (hc : c.isDigit = false) :
    (l ++ c :: r).dropWhile Char.isDigit = c :: r := by
  induction l with
  | nil => simp [List.dropWhile_cons, hc]
  | cons a t ih =>
    rw [List.cons_append, List.dropWhile_cons, if_pos (hl a (by simp))]
    exact ih (fun x hx => hl x (by simp [hx]))

lemma splitAtE_no {l : List Char} (h : ∀ c ∈ l, c ≠ 'E' ∧ c ≠ 'e') :
    splitAtE l = (l, none) := by
  induction l with
  | nil => rfl
  | cons c t ih =>
    have hc := h c (by simp)
    rw [splitAtE_cons_nonE (by simp [hc.1, hc.2]), ih (fun x hx => h x (by simp [hx]))]

lemma splitAtE_mid {l r : List Char} (h : ∀ c ∈ l, c ≠ 'E' ∧ c ≠ 'e') :
    splitAtE (l ++ 'E' :: r) = (l, some r) := by
  induction l with
  | nil => simp [splitAtE]
  | cons c t ih =>
    have hc := h c (by simp)
    rw [List.cons_append, splitAtE_cons_nonE (by simp [hc.1, hc.2]),
      ih (fun x hx => h x (by simp [hx]))]

lemma parseExpDigits_coeffDigits (n : Nat) :
    parseExpDigits (coeffDigits n) = some (n : Int) := by
  unfold parseExpDigits
  rw [if_pos ⟨coeffDigits_ne_nil n, List.all_eq_true.mpr (coeffDigits_all_digit n)⟩,
    digitsToNat_coeffDigits]

lemma parseExp_expChars (z : Int) : parseExp (expChars z) = some z := by
  unfold expChars
  by_cases hz : z < 0
  · rw [if_pos hz]
    show parseExp ('-' :: coeffDigits z.natAbs) = some z
    simp only [parseExp, parseExpDigits_coeffDigits]
    show some (-(z.natAbs : Int)) = some z
    congr 1
    omega
  · rw [if_neg hz]
    show parseExp ('+' :: coeffDigits z.natAbs) = some z
    simp only [parseExp, parseExpDigits_coeffDigits]
    congr 1
    omega

lemma parseMantissa_digits {l : List Char} (h : ∀ x ∈ l, x.isDigit = true) (hne : l ≠ []) :
    parseMantissa l = some (digitsToNat l, 0) := by
  have h1 : l.dropWhile Char.isDigit = [] := dropWhile_digit_all h
  have h2 : l.takeWhile Char.isDigit = l := takeWhile_digit_all h
  unfold parseMantissa
  rw [h1, h2]
  simp [hne]

lemma parseMantissa_point {ip fp : List Char}
    (hip : ∀ x ∈ ip, x.isDigit = true) (hfp : ∀ x ∈ fp, x.isDigit = true)
    (hne : ip ≠ [] ∨ fp ≠ []) :
    parseMantissa (ip ++ '.' :: fp) = some (digitsToNat (ip ++ fp), fp.length) := by
  have h1 : (ip ++ '.' :: fp).dropWhile Char.isDigit = '.' :: fp :=
    dropWhile_digit_append hip (by decide)
  have h2 : (ip ++ '.' :: fp).takeWhile Char.isDigit = ip :=
    takeWhile_digit_append hip (by decide)
  have h3 : fp.dropWhile Char.isDigit = [] := dropWhile_digit_all hfp
  have h4 : fp.takeWhile Char.isDigit = fp := takeWhile_digit_all hfp
  unfold parseMantissa
  rw [h1, h2]
  simp [h3, h4, hne]

lemma parseMantissa_cons_nondigit {c : Char} {t : List Char}
    (h : c.isDigit = false) (hdot : c ≠ '.') :
    parseMantissa (c :: t) = none := by
  have h1 : (c :: t).dropWhile Char.isDigit = c :: t := by
    rw [List.dropWhile_cons, if_neg (by simp [h])]
  unfold parseMantissa
  rw [h1]
  split
  · next heq => exact absurd heq (by simp)
  · next x rest2 heq =>
    injection heq with hh htl
    exact absurd hh hdot
  · rfl

lemma decParseAux_of_no {l : List Char} (hsplit : splitAtE l = (l, none))
    {p : Nat × Nat} (hm : parseMantissa l = some p) :
    decParseAux l = some ⟨false, p.1, -(p.2 : Int)⟩ := by
  unfold decParseAux
  rw [hsplit]
  simp [hm]

lemma decParseAux_of_mid {l m r : List Char} (hsplit : splitAtE l = (m, some r))
    {p : Nat × Nat} (hm : parseMantissa m = some p) {e : Int} (he : parseExp r = some e) :
    decParseAux l = some ⟨false, p.1, e - p.2⟩ := by
  unfold decParseAux
  rw [hsplit]
  simp [hm, he]

lemma decCore_roundtrip (c : Nat) (e : Int) :
    decParseAux (decCore c e) = some ⟨false, c, e⟩ := by
  have hds := coeffDigits_all_digit c
  have hne := coeffDigits_ne_nil c
  have hnum := digitsToNat_coeffDigits c
  have hnotE : ∀ x ∈ coeffDigits c, x ≠ 'E' ∧ x ≠ 'e' := fun x hx =>
    ⟨(isDigit_not_special (hds x hx)).1, (isDigit_not_special (hds x hx)).2.1⟩
  unfold decCore
  by_cases h1 : e ≤ 0 ∧ -6 ≤ e + ((coeffDigits c).length : Int) - 1
  · rw [if_pos h1]
    by_cases h2 : e = 0
    · rw [if_pos h2]
      have hm : parseMantissa (coeffDigits c) = some (c, 0) := by
        rw [parseMantissa_digits hds hne, hnum]
      refine (decParseAux_of_no (splitAtE_no hnotE) hm).trans ?_
      simp [h2]
    · rw [if_neg h2]
      by_cases h3 : e + ((coeffDigits c).length : Int) - 1 < 0
      · rw [if_pos h3]
        have hfp : ∀ x ∈ List.replicate ((-(e + ((coeffDigits c).length : Int) - 1)).toNat - 1)
            '0' ++ coeffDigits c, x.isDigit = true := by
          intro x hx
          rcases List.mem_append.mp hx with hx | hx
          · rw [List.eq_of_mem_replicate hx]; decide
          · exact hds x hx
        have hnotE2 : ∀ x ∈ ('0' :: '.' ::
            (List.replicate ((-(e + ((coeffDigits c).length : Int) - 1)).toNat - 1) '0' ++
              coeffDigits c)), x ≠ 'E' ∧ x ≠ 'e' := by
          intro x hx
          rcases List.mem_cons.mp hx with rfl | hx
          · exact ⟨by decide, by decide⟩
          rcases List.mem_cons.mp hx with rfl | hx
          · exact ⟨by decide, by decide⟩
          exact ⟨(isDigit_not_special (hfp x hx)).1, (isDigit_not_special (hfp x hx)).2.1⟩
        have hm : parseMantissa ('0' :: '.' ::
            (List.replicate ((-(e + ((coeffDigits c).length : Int) - 1)).toNat - 1) '0' ++
              coeffDigits c)) = some (c,
                ((-(e + ((coeffDigits c).length : Int) - 1)).toNat - 1) + (coeffDigits c).length)
            := by
          have hp := @parseMantissa_point ['0']
            (List.replicate ((-(e + ((coeffDigits c).length : Int) - 1)).toNat - 1) '0' ++
              coeffDigits c) (by intro x hx; simp at hx; subst hx; decide) hfp
            (Or.inl (by simp))
          have hval : digitsToNat (['0'] ++
              (List.replicate ((-(e + ((coeffDigits c).length : Int) - 1)).toNat - 1) '0' ++
                coeffDigits c)) = c := by
            have hshape : (['0'] ++
                (List.replicate ((-(e + ((coeffDigits c).length : Int) - 1)).toNat - 1) '0' ++
                  coeffDigits c))
                = List.replicate (((-(e + ((coeffDigits c).length : Int) - 1)).toNat - 1) + 1)
                  '0' ++ coeffDigits c := by
              rw [List.replicate_succ]
              rfl
            rw [hshape, digitsToNat_zeros_append, hnum]
          rw [hval] at hp
          refine hp.trans ?_
          simp [List.length_append, List.length_replicate]
        refine (decParseAux_of_no (splitAtE_no hnotE2) hm).trans ?_
        simp only [Option.some.injEq, Decimal.mk.injEq, true_and]
        have hlen1 : 1 ≤ (coeffDigits c).length := by
          cases hq : coeffDigits c
          · exact absurd hq hne
          · simp
        omega
      · rw [if_neg h3]
        have hlen1 : 1 ≤ (coeffDigits c).length := by
          cases hq : coeffDigits c
          · exact absurd hq hne
          · simp
        have he0 : e < 0 := lt_of_le_of_ne h1.1 h2
        have htake : ∀ x ∈ (coeffDigits c).take (((coeffDigits c).length : Int) + e).toNat,
            x.isDigit = true := fun x hx => hds x (List.take_subset _ _ hx)
        have hdrop : ∀ x ∈ (coeffDigits c).drop (((coeffDigits c).length : Int) + e).toNat,
            x.isDigit = true := fun x hx => hds x (List.drop_subset _ _ hx)
        have htpos : 1 ≤ (((coeffDigits c).length : Int) + e).toNat := by omega
        have htlt : (((coeffDigits c).length : Int) + e).toNat ≤ (coeffDigits c).length := by
          omega
        have htne : (coeffDigits c).take (((coeffDigits c).length : Int) + e).toNat ≠ [] := by
          intro hcon
          have hlt := List.length_take (((coeffDigits c).length : Int) + e).toNat
            (coeffDigits c)
          rw [hcon] at hlt
          simp at hlt
          omega
        have hnotE2 : ∀ x ∈ ((coeffDigits c).take (((coeffDigits c).length : Int) + e).toNat ++
            '.' :: (coeffDigits c).drop (((coeffDigits c).length : Int) + e).toNat),
            x ≠ 'E' ∧ x ≠ 'e' := by
          intro x hx
          rcases List.mem_append.mp hx with hx | hx
          · exact ⟨(isDigit_not_special (htake x hx)).1, (isDigit_not_special (htake x hx)).2.1⟩
          rcases List.mem_cons.mp hx with rfl | hx
          · exact ⟨by decide, by decide⟩
          exact ⟨(isDigit_not_special (hdrop x hx)).1, (isDigit_not_special (hdrop x hx)).2.1⟩
        have hm : parseMantissa
            ((coeffDigits c).take (((coeffDigits c).length : Int) + e).toNat ++
              '.' :: (coeffDigits c).drop (((coeffDigits c).length : Int) + e).toNat)
            = some (c, (coeffDigits c).length - (((coeffDigits c).length : Int) + e).toNat) := by
          have hp := parseMantissa_point htake hdrop (Or.inl htne)
          rw [List.take_append_drop, hnum, List.length_drop] at hp
          exact hp
        refine (decParseAux_of_no (splitAtE_no hnotE2) hm).trans ?_
        simp only [Option.some.injEq, Decimal.mk.injEq, true_and]
        omega
  · rw [if_neg h1]
    cases hds_eq : coeffDigits c with
    | nil => exact absurd hds_eq hne
    | cons d rest =>
      rw [hds_eq] at hds hnum hnotE
      have hd_digit : d.isDigit = true := hds d (by simp)
      have hdE : ∀ x ∈ [d], x ≠ 'E' ∧ x ≠ 'e' := by
        intro y hy
        obtain rfl := List.mem_singleton.mp hy
        exact hnotE y (by simp)
      cases rest with
      | nil =>
        show decParseAux (d :: 'E' :: expChars (e + (([d] : List Char).length : Int) - 1))
            = some ⟨false, c, e⟩
        have hsplit : splitAtE (d :: 'E' :: expChars (e + (([d] : List Char).length : Int) - 1))
            = ([d], some (expChars (e + (([d] : List Char).length : Int) - 1))) :=
          splitAtE_mid hdE
        have hm : parseMantissa [d] = some (c, 0) := by
          rw [parseMantissa_digits
            (by intro y hy; obtain rfl := List.mem_singleton.mp hy; exact hd_digit)
            (by simp), hnum]
        refine (decParseAux_of_mid hsplit hm (parseExp_expChars _)).trans ?_
        simp only [Option.some.injEq, Decimal.mk.injEq, true_and, List.length_cons,
          List.length_nil]
        push_cast
        omega
      | cons r0 rtl =>
        show decParseAux (d :: '.' :: (r0 :: rtl) ++
            'E' :: expChars (e + (((d :: r0 :: rtl) : List Char).length : Int) - 1))
            = some ⟨false, c, e⟩
        have hmant_digits : ∀ x ∈ [d] ++ '.' :: (r0 :: rtl), x ≠ 'E' ∧ x ≠ 'e' := by
          intro y hy
          rcases List.mem_append.mp hy with hy | hy
          · obtain rfl := List.mem_singleton.mp hy
            exact hnotE y (by simp)
          rcases List.mem_cons.mp hy with rfl | hy
          · exact ⟨by decide, by decide⟩
          exact hnotE y (by simp [hy])
        have hsplit : splitAtE (d :: '.' :: ((r0 :: rtl) ++
            'E' :: expChars (e + (((d :: r0 :: rtl) : List Char).length : Int) - 1)))
            = ([d] ++ '.' :: (r0 :: rtl),
              some (expChars (e + (((d :: r0 :: rtl) : List Char).length : Int) - 1))) :=
          splitAtE_mid hmant_digits
        have hm : parseMantissa ([d] ++ '.' :: (r0 :: rtl))
            = some (c, (r0 :: rtl : List Char).length) := by
          have hp := @parseMantissa_point [d] (r0 :: rtl)
            (by intro y hy; obtain rfl := List.mem_singleton.mp hy; exact hd_digit)
            (by intro y hy; exact hds y (by simp [hy])) (Or.inl (by simp))
          have hval : digitsToNat ([d] ++ (r0 :: rtl)) = c := hnum
          rw [hval] at hp
          exact hp
        refine (decParseAux_of_mid hsplit hm (parseExp_expChars _)).trans ?_
        simp only [Option.some.injEq, Decimal.mk.injEq, true_and, List.length_cons]
        push_cast
        omega

lemma decParseAux_cons_sign {t : List Char} {c : Char} (hc : c = '-' ∨ c = '+') :
    decParseAux (c :: t) = none := by
  have hcE : ¬(c = 'E' ∨ c = 'e') := by rcases hc with rfl | rfl <;> decide
  have h1 : splitAtE (c :: t) = (c :: (splitAtE t).1, (splitAtE t).2) :=
    splitAtE_cons_nonE hcE t
  have h2 : parseMantissa (c :: (splitAtE t).1) = none :=
    parseMantissa_cons_nondigit (by rcases hc with rfl | rfl <;> decide)
      (by rcases hc with rfl | rfl <;> decide)
  unfold decParseAux
  rw [h1]
  simp [h2]

lemma parse_eq_decParseAux {l : List Char} (h1 : ∀ t, l ≠ '-' :: t) (h2 : ∀ t, l ≠ '+' :: t) :
    Decimal.parse l = decParseAux l := by
  unfold Decimal.parse
  split
  · next rest => exact absurd rfl (h1 rest)
  · next rest => exact absurd rfl (h2 rest)
  · rfl

lemma parse_cons_minus (t : List Char) :
    Decimal.parse ('-' :: t) = (decParseAux t).map (fun d => { d with sign := true }) := rfl

/-- Key round-trip law of the Python `Decimal` string conversion: parsing
the printed form of any finite decimal recovers it exactly. -/
theorem Decimal.parse_str (x : Decimal) : Decimal.parse (Decimal.str x) = some x := by
  obtain ⟨s, c, e⟩ := x
  have hrt := decCore_roundtrip c e
  have hm : ∀ t, decCore c e ≠ '-' :: t := by
    intro t hcon
    rw [hcon, decParseAux_cons_sign (Or.inl rfl)] at hrt
    exact Option.noConfusion hrt
  have hp : ∀ t, decCore c e ≠ '+' :: t := by
    intro t hcon
    rw [hcon, decParseAux_cons_sign (Or.inr rfl)] at hrt
    exact Option.noConfusion hrt
  cases s
  · show Decimal.parse ([] ++ decCore c e) = _
    rw [List.nil_append, parse_eq_decParseAux hm hp, hrt]
  · show Decimal.parse (['-'] ++ decCore c e) = _
    rw [show (['-'] ++ decCore c e) = '-' :: decCore c e from rfl, parse_cons_minus, hrt]
    rfl

/-! ## Timestamps

The `Calculation` timestamp is a Python naive `datetime`, serialised with
`isoformat()` and parsed with `datetime.fromisoformat`. -/

structure DateTime where
  year : Nat
  month : Nat
  day : Nat
  hour : Nat
  minute : Nat
  second : Nat
  microsecond : Nat
  deriving DecidableEq, Repr

/-- Field ranges of a Python naive `datetime` (the month-specific day
bound, e.g. no 31st of April, is coarsened to `day ≤ 31`). -/
def WfDateTime (t : DateTime) : Prop :=
  1 ≤ t.year ∧ t.year ≤ 9999 ∧ 1 ≤ t.month ∧ t.month ≤ 12 ∧ 1 ≤ t.day ∧ t.day ≤ 31 ∧
    t.hour ≤ 23 ∧ t.minute ≤ 59 ∧ t.second ≤ 59 ∧ t.microsecond < 1000000

instance (t : DateTime) : Decidable (WfDateTime t) := by
  unfold WfDateTime
  infer_instance

/-- Zero-padded fixed-width decimal rendering, as used by `isoformat`. -/
def padNum (width n : Nat) : List Char :=
  List.replicate (width - (coeffDigits n).length) '0' ++ coeffDigits n

/-- Parse exactly `width` digit characters; return the value and remainder. -/
def parseFixed (width : Nat) (l : List Char) : Option (Nat × List Char) :=
  if (l.take width).length = width ∧ (l.take width).all Char.isDigit then
    some (digitsToNat (l.take width), l.drop width)
  else none

/-- Model of `datetime.isoformat()`: `YYYY-MM-DDTHH:MM:SS`, with
`.ffffff` appended exactly when the microsecond field is nonzero. -/
def DateTime.isoformat (t : DateTime) : List Char :=
  padNum 4 t.year ++ '-' :: (padNum 2 t.month ++ '-' :: (padNum 2 t.day ++
    'T' :: (padNum 2 t.hour ++ ':' :: (padNum 2 t.minute ++ ':' :: (padNum 2 t.second ++
      (if t.microsecond = 0 then [] else '.' :: padNum 6 t.microsecond))))))

def expectChar (c : Char) (l : List Char) : Option (List Char) :=
  match l with
  | x :: rest => if x = c then some rest else none
  | [] => none

/-- Model of `datetime.fromisoformat` on the canonical format emitted by
`isoformat`; returns `none` (Python: `ValueError`) on any other input.
Calendar-level validation beyond the digit grammar is elided, as no claim
depends on rejecting such inputs. -/
def DateTime.fromisoformat (l : List Char) : Option DateTime := do
  let (y, l) ← parseFixed 4 l
  let l ← expectChar '-' l
  let (mo, l) ← parseFixed 2 l
  let l ← expectChar '-' l
  let (d, l) ← parseFixed 2 l
  let l ← expectChar 'T' l
  let (h, l) ← parseFixed 2 l
  let l ← expectChar ':' l
  let (mi, l) ← parseFixed 2 l
  let l ← expectChar ':' l
  let (s, l) ← parseFixed 2 l
  match l with
  | [] => pure ⟨y, mo, d, h, mi, s, 0⟩
  | _ => do
    let l ← expectChar '.' l
    let (us, l) ← parseFixed 6 l
    if l = [] then pure ⟨y, mo, d, h, mi, s, us⟩ else none

lemma padNum_length {w n : Nat} (hw : 1 ≤ w) (h : n < 10 ^ w) :
    (padNum w n).length = w := by
  have := coeffDigits_length_le hw h
  unfold padNum
  rw [List.length_append, List.length_replicate]
  omega

lemma padNum_all_digit (w n : Nat) : ∀ c ∈ padNum w n, c.isDigit = true := by
  intro c hc
  rcases List.mem_append.mp hc with hc | hc
  · rw [List.eq_of_mem_replicate hc]; decide
  · exact coeffDigits_all_digit n c hc

lemma digitsToNat_padNum (w n : Nat) : digitsToNat (padNum w n) = n := by
  unfold padNum
  rw [digitsToNat_zeros_append, digitsToNat_coeffDigits]

lemma parseFixed_pad {w n : Nat} (hw : 1 ≤ w) (h : n < 10 ^ w) (r : List Char) :
    parseFixed w (padNum w n ++ r) = some (n, r) := by
  have hlen := padNum_length hw h
  have htake : (padNum w n ++ r).take w = padNum w n := by
    have h2 := List.take_left (padNum w n) r
    rwa [hlen] at h2
  have hdrop : (padNum w n ++ r).drop w = r := by
    have h2 := List.drop_left (padNum w n) r
    rwa [hlen] at h2
  unfold parseFixed
  rw [htake, hdrop, if_pos ⟨hlen, List.all_eq_true.mpr (padNum_all_digit w n)⟩,
    digitsToNat_padNum]

lemma expectChar_cons (c : Char) (r : List Char) : expectChar c (c :: r) = some r := by
  simp [expectChar]

set_option maxHeartbeats 8000000 in
/-- Round trip of the timestamp codec: `fromisoformat` inverts
`isoformat` on well-formed datetimes. -/
theorem DateTime.fromisoformat_isoformat {t : DateTime} (h : WfDateTime t) :
    DateTime.fromisoformat (DateTime.isoformat t) = some t := by
  obtain ⟨y, mo, d, hh, mi, s, us⟩ := t
  obtain ⟨h1, h2, h3, h4, h5, h6, h7, h8, h9, h10⟩ := h
  simp only at h1 h2 h3 h4 h5 h6 h7 h8 h9 h10
  unfold DateTime.isoformat DateTime.fromisoformat
  simp only
  have hy : ∀ r, parseFixed 4 (padNum 4 y ++ r) = some (y, r) :=
    fun r => parseFixed_pad (by norm_num) (by omega) r
  have hmo : ∀ r, parseFixed 2 (padNum 2 mo ++ r) = some (mo, r) :=
    fun r => parseFixed_pad (by norm_num) (by omega) r
  have hd : ∀ r, parseFixed 2 (padNum 2 d ++ r) = some (d, r) :=
    fun r => parseFixed_pad (by norm_num) (by omega) r
  have hhh : ∀ r, parseFixed 2 (padNum 2 hh ++ r) = some (hh, r) :=
    fun r => parseFixed_pad (by norm_num) (by omega) r
  have hmi : ∀ r, parseFixed 2 (padNum 2 mi ++ r) = some (mi, r) :=
    fun r => parseFixed_pad (by norm_num) (by omega) r
  have hs : ∀ r, parseFixed 2 (padNum 2 s ++ r) = some (s, r) :=
    fun r => parseFixed_pad (by norm_num) (by omega) r
  have hs0 : parseFixed 2 (padNum 2 s) = some (s, []) := by
    have h0 := hs []
    rwa [List.append_nil] at h0
  by_cases hus : us = 0
  · rw [if_pos hus]
    simp [hy, hmo, hd, hhh, hmi, hs0, expectChar_cons, hus]
  · rw [if_neg hus]
    have hus6 : parseFixed 6 (padNum 6 us) = some (us, []) := by
      have h0 := parseFixed_pad (w := 6) (n := us) (by norm_num) (by omega) []
      rwa [List.append_nil] at h0
    simp [hy, hmo, hd, hhh, hmi, hs, expectChar_cons, hus6]

/-! ## Comma-joined operand lists -/

/-- Model of Python `s.split(",")`. -/
def splitComma (l : List Char) : List (List Char) :=
  match l with
  | [] => [[]]
  | c :: rest =>
    if c = ',' then [] :: splitComma rest
    else
      match splitComma rest with
      | [] => [[c]]
      | p :: ps => (c :: p) :: ps

/-- Model of Python `",".join(parts)`. -/
def joinComma : List (List Char) → List Char
  | [] => []
  | [p] => p
  | p :: ps => p ++ ',' :: joinComma ps

lemma splitComma_cons (c : Char) (t : List Char) :
    splitComma (c :: t) = if c = ',' then [] :: splitComma t
      else match splitComma t with
        | [] => [[c]]
        | p :: ps => (c :: p) :: ps := rfl

lemma splitComma_ne_nil (l : List Char) : splitComma l ≠ [] := by
  induction l with
  | nil => simp [splitComma]
  | cons c rest ih =>
    unfold splitComma
    by_cases hc : c = ','
    · simp [hc]
    · rw [if_neg hc]
      cases hq : splitComma rest with
      | nil => simp
      | cons p ps => simp

lemma splitComma_no_comma {l : List Char} (h : ',' ∉ l) : splitComma l = [l] := by
  induction l with
  | nil => rfl
  | cons c rest ih =>
    unfold splitComma
    rw [if_neg (by intro hc; exact h (by simp [hc]))]
    rw [ih (fun hc => h (by simp [hc]))]

lemma splitComma_append {p t : List Char} (hp : ',' ∉ p) :
    splitComma (p ++ ',' :: t) = p :: splitComma t := by
  induction p with
  | nil =>
    show splitComma (',' :: t) = [] :: splitComma t
    rw [splitComma_cons, if_pos rfl]
  | cons c rest ih =>
    rw [List.cons_append, splitComma_cons,
      if_neg (by intro hc; exact hp (by simp [hc])),
      ih (fun hc => hp (by simp [hc]))]

lemma splitComma_joinComma {ps : List (List Char)} (hne : ps ≠ [])
    (h : ∀ p ∈ ps, ',' ∉ p) : splitComma (joinComma ps) = ps := by
  induction ps with
  | nil => exact absurd rfl hne
  | cons p rest ih =>
    cases rest with
    | nil =>
      show splitComma (joinComma [p]) = [p]
      unfold joinComma
      exact splitComma_no_comma (h p (by simp))
    | cons q qs =>
      show splitComma (p ++ ',' :: joinComma (q :: qs)) = p :: q :: qs
      rw [splitComma_append (h p (by simp)), ih (by simp) (fun x hx => h x (by simp [hx]))]

lemma coeffDigits_no_comma (n : Nat) : ∀ x ∈ coeffDigits n, x ≠ ',' := fun x hx =>
  (isDigit_not_special (coeffDigits_all_digit n x hx)).2.2.2.1

lemma expChars_no_comma (z : Int) : ∀ x ∈ expChars z, x ≠ ',' := by
  intro x hx
  unfold expChars at hx
  rcases List.mem_append.mp hx with hx | hx
  · by_cases hz : z < 0
    · rw [if_pos hz] at hx; simp at hx; subst hx; decide
    · rw [if_neg hz] at hx; simp at hx; subst hx; decide
  · exact coeffDigits_no_comma _ x hx

lemma decCore_no_comma (c : Nat) (e : Int) : ∀ x ∈ decCore c e, x ≠ ',' := by
  intro x hx
  unfold decCore at hx
  split at hx
  · split at hx
    · exact coeffDigits_no_comma c x hx
    · split at hx
      · rcases List.mem_cons.mp hx with rfl | hx
        · decide
        rcases List.mem_cons.mp hx with rfl | hx
        · decide
        rcases List.mem_append.mp hx with hx | hx
        · rw [List.eq_of_mem_replicate hx]; decide
        · exact coeffDigits_no_comma c x hx
      · rcases List.mem_append.mp hx with hx | hx
        · exact coeffDigits_no_comma c x (List.take_subset _ _ hx)
        rcases List.mem_cons.mp hx with rfl | hx
        · decide
        · exact coeffDigits_no_comma c x (List.drop_subset _ _ hx)
  · split at hx
    · exact absurd hx (List.not_mem_nil x)
    · next d rest heq =>
      split at hx
      · rcases List.mem_cons.mp hx with rfl | hx
        · exact coeffDigits_no_comma c x (by rw [heq]; simp)
        rcases List.mem_cons.mp hx with rfl | hx
        · decide
        · exact expChars_no_comma _ x hx
      · rcases List.mem_cons.mp hx with rfl | hx
        · exact coeffDigits_no_comma c x (by rw [heq]; simp)
        rcases List.mem_cons.mp hx with rfl | hx
        · decide
        rcases List.mem_append.mp hx with hx | hx
        · exact coeffDigits_no_comma c x (by rw [heq]; simp [hx])
        rcases List.mem_cons.mp hx with rfl | hx
        · decide
        · exact expChars_no_comma _ x hx

lemma str_no_comma (x : Decimal) : ',' ∉ Decimal.str x := by
  intro hx
  unfold Decimal.str at hx
  rcases List.mem_append.mp hx with hx | hx
  · by_cases hs : x.sign
    · rw [if_pos hs] at hx; simp at hx
    · rw [if_neg hs] at hx; simp at hx
  · exact decCore_no_comma _ _ ',' hx rfl

lemma decParseAux_nil : decParseAux [] = none := rfl

lemma decCore_ne_nil (c : Nat) (e : Int) : decCore c e ≠ [] := by
  intro hcon
  have h := decCore_roundtrip c e
  rw [hcon, decParseAux_nil] at h
  exact Option.noConfusion h

lemma str_ne_nil (x : Decimal) : Decimal.str x ≠ [] := by
  unfold Decimal.str
  by_cases hs : x.sign
  · rw [if_pos hs]; simp
  · rw [if_neg hs]
    rw [List.nil_append]
    exact decCore_ne_nil _ _

/-! ## Calculation model and the record codec

Embeds `src/model/calculation.py` and the operation registry of
`src/core/operation_registry.py` as populated by
`src/operations/basic.py`. -/

/-- Names in `operation_registry` after `src/operations/basic.py` is
imported.  `register_operation` keys each function by `func.__name__`,
which the `log_method` wrapper preserves via `functools.wraps`, so the
keys are exactly the four arithmetic function names.  The registry maps
each name to a function whose `__name__` equals that name, so for the
codec only the name list matters. -/
def operation_registry : List (List Char) :=
  ["add".data, "subtract".data, "multiply".data, "divide".data]

/-- The `Calculation` entity.  The Python object also stores the resolved
operation callable; since the registry maps `operation_name` to a function
whose `__name__` is `operation_name`, the callable is represented by its
registry name. -/
structure Calculation where
  id : List Char
  operation_name : List Char
  operands : List Decimal
  result : Option Decimal
  timestamp : DateTime
  deriving DecidableEq, Repr

/-- Model of `Calculation.__init__`: raises `ValueError` when no operands
are supplied; otherwise stores the operand list (for `Decimal` arguments
the `Decimal(str(arg))` conversion is the identity, see
`Decimal.parse_str`), a fresh id and creation timestamp (passed in as
parameters standing for `uuid.uuid4()` / `datetime.now()`), result `None`,
and `operation.__name__` as `operation_name`. -/
def Calculation.init (operationName : List Char) (args : List Decimal)
    (freshId : List Char) (now : DateTime) : Except PyErr Calculation :=
  if args.isEmpty then .error .valueError
  else .ok { id := freshId, operation_name := operationName, operands := args,
             result := none, timestamp := now }

/-- The flat string-keyed record produced by `Calculation.to_dict`; the
storage backends trade in these. -/
structure FlatRecord where
  id : List Char
  operation_name : List Char
  operands : List Char
  result : List Char
  timestamp : List Char
  deriving DecidableEq, Repr

/-- Model of `Calculation.to_dict`. -/
def Calculation.to_dict (c : Calculation) : FlatRecord :=
  { id := c.id
  , operation_name := c.operation_name
  , operands := joinComma (c.operands.map Decimal.str)
  , result := match c.result with | some r => Decimal.str r | none => []
  , timestamp := DateTime.isoformat c.timestamp }

/-- The operand list comprehension of `from_dict`:
`[Decimal(op) for op in data["operands"].split(",")]`, with
`InvalidOperation` caught and re-raised as `ValueError`. -/
def parseOperands : List (List Char) → Except PyErr (List Decimal)
  | [] => .ok []
  | s :: ss =>
    match Decimal.parse s with
    | none => .error .valueError
    | some d =>
      match parseOperands ss with
      | .error e => .error e
      | .ok ds => .ok (d :: ds)

/-- Model of `Calculation.from_dict`, step for step: parse the operands
(`ValueError` on a bad operand), check the operation name against the
registry (`ValueError` when unknown), run the constructor, then assign
`result` — where `Decimal(data["result"])` on a nonempty invalid string
raises `InvalidOperation`, which `from_dict` does NOT convert — and
finally parse the timestamp (`ValueError` when unparsable).  `KeyError`
cannot arise here because a `FlatRecord` always carries all five fields. -/
def Calculation.from_dict (d : FlatRecord) : Except PyErr Calculation :=
  match parseOperands (splitComma d.operands) with
  | .error e => .error e
  | .ok operands =>
    if d.operation_name ∈ operation_registry then
      match Calculation.init d.operation_name operands d.id ⟨2024, 1, 1, 0, 0, 0, 0⟩ with
      | .error e => .error e
      | .ok c =>
        if d.result.isEmpty then
          match DateTime.fromisoformat d.timestamp with
          | some t => .ok { c with id := d.id, result := none, timestamp := t }
          | none => .error .valueError
        else
          match Decimal.parse d.result with
          | some r =>
            match DateTime.fromisoformat d.timestamp with
            | some t => .ok { c with id := d.id, result := some r, timestamp := t }
            | none => .error .valueError
          | none => .error .invalidOperation
    else .error .valueError

lemma parseOperands_map_str (ds : List Decimal) :
    parseOperands (ds.map Decimal.str) = .ok ds := by
  induction ds with
  | nil => rfl
  | cons d t ih =>
    show parseOperands (Decimal.str d :: t.map Decimal.str) = .ok (d :: t)
    unfold parseOperands
    rw [Decimal.parse_str, ih]

lemma isEmpty_false_of_ne_nil {α : Type} {l : List α} (h : l ≠ []) : l.isEmpty = false := by
  cases l with
  | nil => exact absurd rfl h
  | cons a t => rfl

/-- C1: decoding the encoding of a `Calculation` whose operation name is
registered restores `id`, `operation_name`, `operands`, `result` and
`timestamp` exactly — including an absent result, which is encoded as the
empty string and decoded back to absent.  The hypotheses state that the
operand list is nonempty (a constructor invariant, see C8) and that the
timestamp is a well-formed datetime. -/
theorem C1_codec_roundtrip (c : Calculation)
    (hop : c.operation_name ∈ operation_registry)
    (hops : c.operands ≠ []) (ht : WfDateTime c.timestamp) :
    Calculation.from_dict (Calculation.to_dict c) = .ok c := by
  obtain ⟨cid, cop, cargs, cres, cts⟩ := c
  simp only at hop hops ht
  have hsplit : splitComma (joinComma (cargs.map Decimal.str)) = cargs.map Decimal.str :=
    splitComma_joinComma (by simpa using hops)
      (by intro p hp; rw [List.mem_map] at hp; obtain ⟨d, _, rfl⟩ := hp; exact str_no_comma d)
  have hie : cargs.isEmpty = false := isEmpty_false_of_ne_nil hops
  have hiso := DateTime.fromisoformat_isoformat (t := cts) ht
  cases cres with
  | none =>
    unfold Calculation.to_dict Calculation.from_dict
    simp only
    rw [hsplit, parseOperands_map_str]
    simp only [if_pos hop, Calculation.init, hie, Bool.false_eq_true, if_false,
      List.isEmpty_nil, if_true, hiso]
  | some r =>
    unfold Calculation.to_dict Calculation.from_dict
    simp only
    rw [hsplit, parseOperands_map_str]
    have hre : (Decimal.str r).isEmpty = false := isEmpty_false_of_ne_nil (str_ne_nil r)
    simp only [if_pos hop, Calculation.init, hie, Bool.false_eq_true, if_false, hre,
      Decimal.parse_str, hiso]

/-- Witness for C1 at a concrete calculation: `add` on operands 2 and 3
with result 5. -/
theorem C1_codec_roundtrip_witness :
    Calculation.from_dict (Calculation.to_dict ⟨"abc".data, "add".data,
      [⟨false, 2, 0⟩, ⟨false, 3, 0⟩], some ⟨false, 5, 0⟩, ⟨2024, 5, 6, 7, 8, 9, 0⟩⟩) =
      .ok ⟨"abc".data, "add".data, [⟨false, 2, 0⟩, ⟨false, 3, 0⟩], some ⟨false, 5, 0⟩,
        ⟨2024, 5, 6, 7, 8, 9, 0⟩⟩ :=
  C1_codec_roundtrip _ (by decide) (by decide) (by decide)

/-! ## Storage backends

`MemoryRepository` keeps records in a Python list; `CSVRepository` keeps a
pandas dataframe which it rewrites to disk after each mutation.  Both are
modelled by their record sequence; the file write rewrites the whole file
from that sequence and does not change it, so it is elided.  Every stored
record comes from `Calculation.to_dict`, so the `'id' in item` guard of
the memory variant always holds on a `FlatRecord`. -/

/-- Model of `MemoryRepository.add`: appends; never rejects duplicates. -/
def MemoryRepository.add (items : List FlatRecord) (item : FlatRecord) : List FlatRecord :=
  items ++ [item]

/-- Model of `MemoryRepository.get_all`: raises on an empty store. -/
def MemoryRepository.get_all (items : List FlatRecord) : Except PyErr (List FlatRecord) :=
  if items.isEmpty then .error .emptyRepositoryError else .ok items

/-- Model of `MemoryRepository.get_by_id`: first record with a matching
`id`, scanning in insertion order. -/
def MemoryRepository.get_by_id (items : List FlatRecord) (i : List Char) :
    Except PyErr FlatRecord :=
  match items with
  | [] => .error .itemNotFoundError
  | x :: rest => if x.id = i then .ok x else MemoryRepository.get_by_id rest i

/-- Model of `MemoryRepository.delete`: pops the first record with a
matching `id`; raises `ItemNotFoundError` (leaving the list untouched)
when none matches. -/
def MemoryRepository.delete (items : List FlatRecord) (i : List Char) :
    Except PyErr (List FlatRecord) :=
  match items with
  | [] => .error .itemNotFoundError
  | x :: rest =>
    if x.id = i then .ok rest
    else
      match MemoryRepository.delete rest i with
      | .ok rest2 => .ok (x :: rest2)
      | .error e => .error e

/-- Model of `CSVRepository.add`. -/
def CSVRepository.add (df : List FlatRecord) (item : FlatRecord) : List FlatRecord :=
  df ++ [item]

/-- Model of `CSVRepository.get_all`: raises on an empty frame. -/
def CSVRepository.get_all (df : List FlatRecord) : Except PyErr (List FlatRecord) :=
  if df.isEmpty then .error .emptyRepositoryError else .ok df

/-- Model of `CSVRepository.get_by_id`: first row of the id-filtered
frame; `ItemNotFoundError` when the frame or the filtered frame is
empty. -/
def CSVRepository.get_by_id (df : List FlatRecord) (i : List Char) :
    Except PyErr FlatRecord :=
  match df.filter (fun x => decide (x.id = i)) with
  | [] => .error .itemNotFoundError
  | x :: _ => .ok x

/-- Model of `CSVRepository.delete`: keeps the rows whose id differs and
raises `ItemNotFoundError` when that removes no row (in which case the
kept rows are all rows, so the frame contents are unchanged). -/
def CSVRepository.delete (df : List FlatRecord) (i : List Char) :
    Except PyErr (List FlatRecord) :=
  if (df.filter (fun x => decide (x.id ≠ i))).length = df.length then
    .error .itemNotFoundError
  else .ok (df.filter (fun x => decide (x.id ≠ i)))

lemma memory_delete_absent {items : List FlatRecord} {i : List Char}
    (h : ∀ x ∈ items, x.id ≠ i) :
    MemoryRepository.delete items i = .error .itemNotFoundError := by
  induction items with
  | nil => rfl
  | cons x rest ih =>
    unfold MemoryRepository.delete
    rw [if_neg (h x (by simp)), ih (fun y hy => h y (by simp [hy]))]

lemma memory_get_by_id_absent {items : List FlatRecord} {i : List Char}
    (h : ∀ x ∈ items, x.id ≠ i) :
    MemoryRepository.get_by_id items i = .error .itemNotFoundError := by
  induction items with
  | nil => rfl
  | cons x rest ih =>
    unfold MemoryRepository.get_by_id
    rw [if_neg (h x (by simp)), ih (fun y hy => h y (by simp [hy]))]

lemma memory_delete_first {l1 l2 : List FlatRecord} {r : FlatRecord} {i : List Char}
    (hr : r.id = i) (h1 : ∀ x ∈ l1, x.id ≠ i) :
    MemoryRepository.delete (l1 ++ r :: l2) i = .ok (l1 ++ l2) := by
  induction l1 with
  | nil =>
    show MemoryRepository.delete (r :: l2) i = .ok l2
    unfold MemoryRepository.delete
    rw [if_pos hr]
  | cons x rest ih =>
    rw [List.cons_append]
    unfold MemoryRepository.delete
    rw [if_neg (h1 x (by simp)), ih (fun y hy => h1 y (by simp [hy]))]
    rfl

lemma csv_delete_absent {df : List FlatRecord} {i : List Char}
    (h : ∀ x ∈ df, x.id ≠ i) :
    CSVRepository.delete df i = .error .itemNotFoundError := by
  unfold CSVRepository.delete
  rw [if_pos]
  rw [List.filter_eq_self.mpr (fun a ha => by simpa using h a ha)]

lemma csv_delete_present {df : List FlatRecord} {i : List Char}
    (h : ∃ x ∈ df, x.id = i) :
    CSVRepository.delete df i = .ok (df.filter (fun x => decide (x.id ≠ i))) := by
  unfold CSVRepository.delete
  rw [if_neg]
  intro hlen
  obtain ⟨x, hx, hxi⟩ := h
  have hlt : (df.filter (fun x => decide (x.id ≠ i))).length < df.length := by
    apply List.length_filter_lt_length_iff_exists.mpr
    exact ⟨x, hx, by simp [hxi]⟩
  omega

lemma csv_get_by_id_filtered (df : List FlatRecord) (i : List Char) :
    CSVRepository.get_by_id (df.filter (fun x => decide (x.id ≠ i))) i =
      .error .itemNotFoundError := by
  unfold CSVRepository.get_by_id
  have h : (df.filter (fun x => decide (x.id ≠ i))).filter (fun x => decide (x.id = i)) = [] := by
    rw [List.filter_eq_nil_iff]
    intro a ha
    have := (List.mem_filter.mp ha).2
    simp at this ⊢
    exact this
  rw [h]

/-- C3: on a store containing no records, `get_all` of both backend
variants raises `EmptyRepositoryError` (the spec's `EmptyStoreError`)
rather than returning an empty sequence; on any nonempty store both
return the records unchanged, in insertion order. -/
theorem C3_get_all_empty_raises :
    (MemoryRepository.get_all [] = .error .emptyRepositoryError ∧
      CSVRepository.get_all [] = .error .emptyRepositoryError) ∧
    ∀ items : List FlatRecord, items ≠ [] →
      MemoryRepository.get_all items = .ok items ∧ CSVRepository.get_all items = .ok items := by
  refine ⟨⟨rfl, rfl⟩, ?_⟩
  intro items h
  have hie : items.isEmpty = false := isEmpty_false_of_ne_nil h
  exact ⟨by unfold MemoryRepository.get_all; rw [hie]; rfl,
    by unfold CSVRepository.get_all; rw [hie]; rfl⟩

/-- Witness for C3 at a concrete one-record store. -/
theorem C3_get_all_empty_raises_witness :
    MemoryRepository.get_all [⟨"a".data, "add".data, "2".data, "".data, "t".data⟩] =
      .ok [⟨"a".data, "add".data, "2".data, "".data, "t".data⟩] ∧
    CSVRepository.get_all [⟨"a".data, "add".data, "2".data, "".data, "t".data⟩] =
      .ok [⟨"a".data, "add".data, "2".data, "".data, "t".data⟩] :=
  C3_get_all_empty_raises.2 _ (by decide)

/-- Counterexample to C4 as stated: in the in-memory backend, on a store
holding two records that share the id `"x"`, `delete "x"` removes only
the first, and the subsequent `get_by_id "x"` SUCCEEDS instead of failing
with `ItemNotFoundError`. -/
theorem C4_counterexample :
    MemoryRepository.delete
      [⟨"x".data, "add".data, "2".data, "".data, "t".data⟩,
       ⟨"x".data, "add".data, "3".data, "".data, "t".data⟩] "x".data =
      .ok [⟨"x".data, "add".data, "3".data, "".data, "t".data⟩] ∧
    MemoryRepository.get_by_id
      [⟨"x".data, "add".data, "3".data, "".data, "t".data⟩] "x".data =
      .ok ⟨"x".data, "add".data, "3".data, "".data, "t".data⟩ ∧
    MemoryRepository.get_by_id
      [⟨"x".data, "add".data, "3".data, "".data, "t".data⟩] "x".data ≠
      .error .itemNotFoundError := by
  refine ⟨rfl, rfl, ?_⟩
  intro hcon
  rw [show (MemoryRepository.get_by_id
      [⟨"x".data, "add".data, "3".data, "".data, "t".data⟩] "x".data)
      = .ok ⟨"x".data, "add".data, "3".data, "".data, "t".data⟩ from rfl] at hcon
  exact Except.noConfusion hcon

/-- C4 as amended: `delete` of an absent id fails with
`ItemNotFoundError` and leaves both stores unchanged; in the in-memory
variant, when the store holds EXACTLY ONE record with the id, deleting it
makes a subsequent `get_by_id` fail with `ItemNotFoundError`; in the
flat-file variant the same holds for any store containing the id, since
all matching rows are removed. -/
theorem C4_delete_then_get_amended :
    (∀ (items : List FlatRecord) (i : List Char), (∀ x ∈ items, x.id ≠ i) →
      MemoryRepository.delete items i = .error .itemNotFoundError ∧
      CSVRepository.delete items i = .error .itemNotFoundError) ∧
    (∀ (l1 l2 : List FlatRecord) (r : FlatRecord) (i : List Char),
      r.id = i → (∀ x ∈ l1, x.id ≠ i) → (∀ x ∈ l2, x.id ≠ i) →
      MemoryRepository.delete (l1 ++ r :: l2) i = .ok (l1 ++ l2) ∧
      MemoryRepository.get_by_id (l1 ++ l2) i = .error .itemNotFoundError) ∧
    (∀ (df : List FlatRecord) (i : List Char), (∃ x ∈ df, x.id = i) →
      CSVRepository.delete df i = .ok (df.filter (fun x => decide (x.id ≠ i))) ∧
      CSVRepository.get_by_id (df.filter (fun x => decide (x.id ≠ i))) i =
        .error .itemNotFoundError) := by
  refine ⟨?_, ?_, ?_⟩
  · intro items i h
    exact ⟨memory_delete_absent h, csv_delete_absent h⟩
  · intro l1 l2 r i hr h1 h2
    refine ⟨memory_delete_first hr h1, memory_get_by_id_absent ?_⟩
    intro x hx
    rcases List.mem_append.mp hx with hx | hx
    · exact h1 x hx
    · exact h2 x hx
  · intro df i h
    exact ⟨csv_delete_present h, csv_get_by_id_filtered df i⟩

/-- Witness for the amended C4: a two-record store with distinct ids. -/
theorem C4_delete_then_get_amended_witness :
    MemoryRepository.delete
      [⟨"x".data, "add".data, "2".data, "".data, "t".data⟩,
       ⟨"y".data, "add".data, "3".data, "".data, "t".data⟩] "x".data =
      .ok [⟨"y".data, "add".data, "3".data, "".data, "t".data⟩] ∧
    MemoryRepository.get_by_id
      [⟨"y".data, "add".data, "3".data, "".data, "t".data⟩] "x".data =
      .error .itemNotFoundError :=
  C4_delete_then_get_amended.2.1 []
    [⟨"y".data, "add".data, "3".data, "".data, "t".data⟩]
    ⟨"x".data, "add".data, "2".data, "".data, "t".data⟩ "x".data
    (by decide) (by decide) (by decide)

/-- C9: deleting an id held by several records removes only the
earliest-inserted one in the in-memory backend — every later duplicate
survives — while the flat-file backend removes all rows with that id (the
result is the id-free filter of the frame, so no record with the id
remains). -/
theorem C9_delete_duplicates :
    (∀ (l1 l2 : List FlatRecord) (r : FlatRecord) (i : List Char),
      r.id = i → (∀ x ∈ l1, x.id ≠ i) →
      MemoryRepository.delete (l1 ++ r :: l2) i = .ok (l1 ++ l2)) ∧
    (∀ (df : List FlatRecord) (i : List Char), (∃ x ∈ df, x.id = i) →
      CSVRepository.delete df i = .ok (df.filter (fun x => decide (x.id ≠ i))) ∧
      ∀ x ∈ df.filter (fun x => decide (x.id ≠ i)), x.id ≠ i) := by
  constructor
  · intro l1 l2 r i hr h1
    exact memory_delete_first hr h1
  · intro df i h
    refine ⟨csv_delete_present h, ?_⟩
    intro x hx
    have := (List.mem_filter.mp hx).2
    simpa using this

/-- Witness for C9: two records sharing id `"x"`; the memory variant
keeps the second duplicate, the flat-file variant removes both. -/
theorem C9_delete_duplicates_witness :
    MemoryRepository.delete
      [⟨"x".data, "add".data, "2".data, "".data, "t".data⟩,
       ⟨"x".data, "add".data, "3".data, "".data, "t".data⟩] "x".data =
      .ok [⟨"x".data, "add".data, "3".data, "".data, "t".data⟩] ∧
    CSVRepository.delete
      [⟨"x".data, "add".data, "2".data, "".data, "t".data⟩,
       ⟨"x".data, "add".data, "3".data, "".data, "t".data⟩] "x".data = .ok [] :=
  ⟨(C9_delete_duplicates.1 []
      [⟨"x".data, "add".data, "3".data, "".data, "t".data⟩]
      ⟨"x".data, "add".data, "2".data, "".data, "t".data⟩ "x".data rfl (by decide)),
   (C9_delete_duplicates.2
      [⟨"x".data, "add".data, "2".data, "".data, "t".data⟩,
       ⟨"x".data, "add".data, "3".data, "".data, "t".data⟩] "x".data
      ⟨⟨"x".data, "add".data, "2".data, "".data, "t".data⟩, by decide, rfl⟩).1⟩

/-! ## History service

Embeds `src/persistance/calculation_history.py`.  The history wraps one
backend; both backends' `get_all` return the stored records in insertion
order when nonempty and raise `EmptyRepositoryError` otherwise, and the
default backend is `CSVRepository`, which is used here. -/

/-- Python `Decimal.__eq__` compares numeric values:
`(-1)^s1*c1*10^e1 = (-1)^s2*c2*10^e2`, decided after rescaling both sides
to the smaller exponent. -/
def Decimal.scaled (a : Decimal) (m : Int) : Int :=
  (if a.sign then -1 else 1) * (a.coeff : Int) * 10 ^ (a.exp - m).toNat

/-- Python `Decimal` value equality (`==`). -/
def Decimal.valEq (a b : Decimal) : Bool :=
  decide (Decimal.scaled a (min a.exp b.exp) = Decimal.scaled b (min a.exp b.exp))

/-- The decode loop of `get_all_calculations`: decode each record in
order, appending successes; the `except (ValueError, KeyError)` clause
downgrades exactly those two exceptions to a logged skip, and any other
exception propagates out of the loop. -/
def decodeLoop : List FlatRecord → Except PyErr (List Calculation)
  | [] => .ok []
  | d :: ds =>
    match Calculation.from_dict d with
    | .ok c =>
      match decodeLoop ds with
      | .ok cs => .ok (c :: cs)
      | .error e => .error e
    | .error .valueError => decodeLoop ds
    | .error .keyError => decodeLoop ds
    | .error e => .error e

/-- Model of `CalculationHistory.get_all_calculations` over the backend's
record sequence: `EmptyRepositoryError` becomes `EmptyHistoryError`, and
the records are decoded by `decodeLoop`. -/
def CalculationHistory.get_all_calculations (records : List FlatRecord) :
    Except PyErr (List Calculation) :=
  match CSVRepository.get_all records with
  | .ok ds => decodeLoop ds
  | .error .emptyRepositoryError => .error .emptyHistoryError
  | .error e => .error e

/-- Model of `CalculationHistory.filter_calculations_by_operation`:
decode all and filter by `operation_name`; `EmptyHistoryError` becomes an
empty list. -/
def CalculationHistory.filter_calculations_by_operation (records : List FlatRecord)
    (name : List Char) : Except PyErr (List Calculation) :=
  match CalculationHistory.get_all_calculations records with
  | .ok cs => .ok (cs.filter (fun c => decide (c.operation_name = name)))
  | .error .emptyHistoryError => .ok []
  | .error e => .error e

/-- Model of `CalculationHistory.filter_calculations_by_result`: decode
all and keep the calculations whose result compares `==` to the given
value (`None == value` is false); `EmptyHistoryError` becomes an empty
list. -/
def CalculationHistory.filter_calculations_by_result (records : List FlatRecord)
    (value : Decimal) : Except PyErr (List Calculation) :=
  match CalculationHistory.get_all_calculations records with
  | .ok cs => .ok (cs.filter (fun c =>
      match c.result with
      | some r => Decimal.valEq r value
      | none => false))
  | .error .emptyHistoryError => .ok []
  | .error e => .error e

/-- The records that decode successfully, in backend order. -/
def decodeOk (records : List FlatRecord) : List Calculation :=
  records.filterMap (fun d => (Calculation.from_dict d).toOption)

lemma decodeLoop_ok {records : List FlatRecord}
    (h : ∀ d ∈ records, ∀ e, Calculation.from_dict d = .error e →
      e = .valueError ∨ e = .keyError) :
    decodeLoop records = .ok (decodeOk records) := by
  induction records with
  | nil => rfl
  | cons d ds ih =>
    have ih2 := ih (fun x hx e he => h x (by simp [hx]) e he)
    unfold decodeLoop decodeOk
    cases hq : Calculation.from_dict d with
    | ok c =>
      rw [ih2]
      simp [decodeOk, List.filterMap_cons, hq, Except.toOption]
    | error e =>
      rcases h d (by simp) e hq with rfl | rfl
      · rw [ih2]
        simp [decodeOk, List.filterMap_cons, hq, Except.toOption]
      · rw [ih2]
        simp [decodeOk, List.filterMap_cons, hq, Except.toOption]

/-- A record either decodes, or fails with one of the two exceptions that
`get_all_calculations` downgrades to a skip. -/
def decodesOrCaught (d : FlatRecord) : Prop :=
  match Calculation.from_dict d with
  | .ok _ => True
  | .error e => e = .valueError ∨ e = .keyError

instance (d : FlatRecord) : Decidable (decodesOrCaught d) := by
  unfold decodesOrCaught
  split <;> infer_instance

lemma decodeLoop_ok_of_caught {records : List FlatRecord}
    (h : ∀ d ∈ records, decodesOrCaught d) :
    decodeLoop records = .ok (decodeOk records) := by
  apply decodeLoop_ok
  intro d hd e he
  have h2 := h d hd
  unfold decodesOrCaught at h2
  rw [he] at h2
  exact h2

/-- Evidence for C6's code bug, at concrete stores.  First: a store whose
second record carries the corrupt result field `"bad"` makes
`get_all_calculations` propagate `InvalidOperation` — the record is not
skipped, and the first (healthy) record is not returned.  Second, the
behaviour the claim describes does hold for the caught exception kinds: a
record with an unparsable timestamp raises `ValueError`, is skipped, and
the healthy record is still returned. -/
theorem C6_corrupt_result_not_skipped :
    CalculationHistory.get_all_calculations
      [⟨"a".data, "add".data, "2".data, "".data, "2024-05-06T07:08:09".data⟩,
       ⟨"b".data, "add".data, "2".data, "bad".data, "2024-05-06T07:08:09".data⟩] =
      .error .invalidOperation ∧
    CalculationHistory.get_all_calculations
      [⟨"a".data, "add".data, "2".data, "".data, "2024-05-06T07:08:09".data⟩,
       ⟨"c".data, "add".data, "2".data, "".data, "badts".data⟩] =
      .ok [⟨"a".data, "add".data, [⟨false, 2, 0⟩], none, ⟨2024, 5, 6, 7, 8, 9, 0⟩⟩] :=
  ⟨rfl, rfl⟩

/-- Counterexample to C7 as stated: on the nonempty history holding one
record with a corrupt result field, `filterByOperation` does not return
the (empty) sequence of decoded matching calculations — it propagates
`InvalidOperation` and returns no sequence at all. -/
theorem C7_counterexample :
    CalculationHistory.filter_calculations_by_operation
      [⟨"b".data, "add".data, "2".data, "bad".data, "t".data⟩] "add".data =
      .error .invalidOperation ∧
    ∀ cs : List Calculation,
      CalculationHistory.filter_calculations_by_operation
        [⟨"b".data, "add".data, "2".data, "bad".data, "t".data⟩] "add".data ≠ .ok cs := by
  refine ⟨rfl, ?_⟩
  intro cs hcon
  rw [show CalculationHistory.filter_calculations_by_operation
      [⟨"b".data, "add".data, "2".data, "bad".data, "t".data⟩] "add".data =
      .error .invalidOperation from rfl] at hcon
  exact Except.noConfusion hcon

/-- C7 as amended: on an empty history both filters return an empty
sequence rather than propagating `EmptyHistoryError`; and on any history
whose records all decode or fail only with the caught exception kinds
(`ValueError`/`KeyError`), the filters return exactly the successfully
decoded calculations whose `operation_name` (resp. whose result value)
matches.  The proviso excludes records with a nonempty unparsable result
field, on which the filters instead propagate `InvalidOperation` — see
the counterexample. -/
theorem C7_filters_amended :
    (∀ (name : List Char) (v : Decimal),
      CalculationHistory.filter_calculations_by_operation [] name = .ok [] ∧
      CalculationHistory.filter_calculations_by_result [] v = .ok []) ∧
    (∀ (records : List FlatRecord) (name : List Char) (v : Decimal),
      (∀ d ∈ records, decodesOrCaught d) →
      CalculationHistory.filter_calculations_by_operation records name =
        .ok ((decodeOk records).filter (fun c => decide (c.operation_name = name))) ∧
      CalculationHistory.filter_calculations_by_result records v =
        .ok ((decodeOk records).filter (fun c =>
          match c.result with
          | some r => Decimal.valEq r v
          | none => false))) := by
  constructor
  · intro name v
    exact ⟨rfl, rfl⟩
  · intro records name v h
    by_cases hrec : records = []
    · subst hrec
      exact ⟨rfl, rfl⟩
    · have hie : records.isEmpty = false := isEmpty_false_of_ne_nil hrec
      have hcsv : CSVRepository.get_all records = .ok records := by
        unfold CSVRepository.get_all
        rw [hie]
        rfl
      have hga : CalculationHistory.get_all_calculations records = .ok (decodeOk records) := by
        unfold CalculationHistory.get_all_calculations
        rw [hcsv]
        exact decodeLoop_ok_of_caught h
      constructor
      · unfold CalculationHistory.filter_calculations_by_operation
        rw [hga]
      · unfold CalculationHistory.filter_calculations_by_result
        rw [hga]

/-- Witness for the amended C7: a healthy record plus a skipped
(`ValueError`) record; filtering by `add` returns exactly the decoded
healthy calculation. -/
theorem C7_filters_amended_witness :
    CalculationHistory.filter_calculations_by_operation
      [⟨"a".data, "add".data, "2".data, "".data, "2024-05-06T07:08:09".data⟩,
       ⟨"c".data, "add".data, "2".data, "".data, "badts".data⟩] "add".data =
      .ok [⟨"a".data, "add".data, [⟨false, 2, 0⟩], none, ⟨2024, 5, 6, 7, 8, 9, 0⟩⟩] :=
  (C7_filters_amended.2
    [⟨"a".data, "add".data, "2".data, "".data, "2024-05-06T07:08:09".data⟩,
     ⟨"c".data, "add".data, "2".data, "".data, "badts".data⟩]
    "add".data ⟨false, 0, 0⟩ (by decide)).1

/-! ## Coordination layer

Embeds `src/coordination/calculator.py` and
`src/coordination/operation_executor.py`. -/

/-- Model of the registered `divide` of `src/operations/basic.py`: the
explicit zero check (`b == 0` is `Decimal` value equality, i.e. a zero
coefficient) raises `ZeroDivisionError`; on a nonzero divisor `a / b` is
Python `Decimal` context division, taken as the parameter `divImpl`. -/
def divideOp (divImpl : Decimal → Decimal → Decimal) (a b : Decimal) :
    Except PyErr Decimal :=
  if b.coeff = 0 then .error .zeroDivisionError else .ok (divImpl a b)

/-- Model of `Calculator.perform_operation`: build the `Calculation` from
the two operands, execute it (`Calculation.perform_operation` applies the
operation to the stored operands and records the result), and only then
append the encoded calculation to the history.  An exception from the
operation propagates before the history is touched.  Fresh id and
creation time are parameters standing for `uuid.uuid4()` /
`datetime.now()`; the history backend appends the record. -/
def Calculator.perform_operation (op : Decimal → Decimal → Except PyErr Decimal)
    (opName : List Char) (a b : Decimal) (history : List FlatRecord)
    (freshId : List Char) (now : DateTime) :
    Except PyErr (Decimal × List FlatRecord) :=
  match Calculation.init opName [a, b] freshId now with
  | .error e => .error e
  | .ok c =>
    match op a b with
    | .error e => .error e
    | .ok r =>
      .ok (r, CSVRepository.add history (Calculation.to_dict { c with result := some r }))

/-- The user-visible outcome of one executor run. -/
inductive Report where
  | invalidInput
  | resultOf (name : List Char) (r : Decimal)
  | divisionByZero
  | genericError
  deriving DecidableEq, Repr

/-- Model of `BinaryOperationExecutor.execute`: parse the two inputs
(reporting an input error and leaving history untouched on failure), run
the calculator, and report the result — with a dedicated message on
`ZeroDivisionError` and a generic one on any other exception, in both
cases without having touched the history. -/
def BinaryOperationExecutor.execute (op : Decimal → Decimal → Except PyErr Decimal)
    (opName : List Char) (inputA inputB : List Char) (history : List FlatRecord)
    (freshId : List Char) (now : DateTime) : Report × List FlatRecord :=
  match Decimal.parse inputA with
  | none => (.invalidInput, history)
  | some a =>
    match Decimal.parse inputB with
    | none => (.invalidInput, history)
    | some b =>
      match Calculator.perform_operation op opName a b history freshId now with
      | .ok (r, h2) => (.resultOf opName r, h2)
      | .error .zeroDivisionError => (.divisionByZero, history)
      | .error _ => (.genericError, history)

/-- C2: executing `divide` on inputs whose second operand parses to a
zero decimal reports the dedicated division-by-zero message and returns
the history unchanged: the `ZeroDivisionError` is raised inside
`Calculation.perform_operation`, before `add_calculation` runs, so no
record is appended — for every starting history, every division
implementation, and every fresh id / timestamp. -/
theorem C2_divide_by_zero (divImpl : Decimal → Decimal → Decimal)
    (history : List FlatRecord) (inputA inputB : List Char) (a b : Decimal)
    (freshId : List Char) (now : DateTime)
    (ha : Decimal.parse inputA = some a) (hb : Decimal.parse inputB = some b)
    (hzero : b.coeff = 0) :
    BinaryOperationExecutor.execute (divideOp divImpl) "divide".data inputA inputB
      history freshId now = (.divisionByZero, history) := by
  unfold BinaryOperationExecutor.execute
  rw [ha, hb]
  unfold Calculator.perform_operation Calculation.init
  simp [divideOp, hzero]

/-- Witness for C2: inputs `"10"` and `"0"` against a one-record history;
the report is the division-by-zero message and the history is returned
as it was. -/
theorem C2_divide_by_zero_witness :
    BinaryOperationExecutor.execute (divideOp (fun a _ => a)) "divide".data
      "10".data "0".data [⟨"a".data, "add".data, "2".data, "".data, "t".data⟩]
      "id1".data ⟨2024, 1, 2, 3, 4, 5, 0⟩ =
      (.divisionByZero, [⟨"a".data, "add".data, "2".data, "".data, "t".data⟩]) :=
  C2_divide_by_zero (fun a _ => a) _ _ _ ⟨false, 10, 0⟩ ⟨false, 0, 0⟩ _ _
    (by rfl) (by rfl) rfl

/-! ## Command handler and fuzzy suggestion

Embeds `src/command/command_handler.py` and the parts of
`difflib.get_close_matches` / `difflib.SequenceMatcher` it relies on. -/

/-- Length of the common prefix of two character lists. -/
def commonPrefixLen : List Char → List Char → Nat
  | a :: as, b :: bs => if a = b then commonPrefixLen as bs + 1 else 0
  | _, _ => 0

/-- Model of `SequenceMatcher.find_longest_match` over the whole (junk
free, short) sequences: a triple `(i, j, k)` with `a[i:i+k] = b[j:j+k]`,
`k` maximal, and among maximal blocks the smallest `i`, then the smallest
`j` — realised by scanning `i` then `j` in ascending order and replacing
the current best only on a strictly longer match. -/
def bestMatch (a b : List Char) : Nat × Nat × Nat :=
  (List.range a.length).foldl (fun acc i =>
    (List.range b.length).foldl (fun acc2 j =>
      if commonPrefixLen (a.drop i) (b.drop j) > acc2.2.2 then
        (i, j, commonPrefixLen (a.drop i) (b.drop j))
      else acc2) acc) (0, 0, 0)

/-- Total matched characters of `SequenceMatcher.get_matching_blocks`:
take the longest match, then recurse on the slices left and right of it.
Structural fuel makes it kernel-evaluable; every level of actual
recursion shrinks `a.length + b.length`, so the fuel used by
`matchTotal` suffices. -/
def matchTotalAux (fuel : Nat) (a b : List Char) : Nat :=
  match fuel with
  | 0 => 0
  | fuel + 1 =>
    match bestMatch a b with
    | (i, j, k) =>
      if k = 0 then 0
      else k + matchTotalAux fuel (a.take i) (b.take j) +
        matchTotalAux fuel (a.drop (i + k)) (b.drop (j + k))

def matchTotal (a b : List Char) : Nat := matchTotalAux (a.length + b.length + 1) a b

/-- Numerator of `SequenceMatcher(None, name, word).ratio() = 2M/T`,
with the `T = 0 → ratio 1` special case of `_calculate_ratio`. -/
def ratioNum (name word : List Char) : Nat :=
  if name.length + word.length = 0 then 1 else 2 * matchTotal name word

/-- Denominator of the ratio (positive by construction). -/
def ratioDen (name word : List Char) : Nat :=
  if name.length + word.length = 0 then 1 else name.length + word.length

lemma ratioDen_pos (name word : List Char) : 0 < ratioDen name word := by
  unfold ratioDen
  split
  · norm_num
  · next h => omega

/-- Cutoff test of `get_close_matches` with cutoff `0.6`: `2M/T ≥ 3/5`,
i.e. `3T ≤ 5·2M`.  (For these short strings the exact rational
comparison agrees with CPython's float comparison against `0.6`: a
rational `2M/T` with `T` far below `2^50` cannot lie strictly between
the double nearest `0.6` and `3/5`.) -/
def cutoffOK (word name : List Char) : Bool :=
  decide (3 * ratioDen name word ≤ 5 * ratioNum name word)

/-- Python string `<`: lexicographic on code points; a strict prefix
compares smaller. -/
def pyStrLt : List Char → List Char → Bool
  | [], [] => false
  | [], _ :: _ => true
  | _ :: _, [] => false
  | a :: as, b :: bs =>
    if a.toNat < b.toNat then true
    else if b.toNat < a.toNat then false
    else pyStrLt as bs

lemma pyStrLt_irrefl (l : List Char) : pyStrLt l l = false := by
  induction l with
  | nil => rfl
  | cons a as ih =>
    unfold pyStrLt
    simp [ih]

lemma pyStrLt_trans {a b c : List Char} (h1 : pyStrLt a b = true)
    (h2 : pyStrLt b c = true) : pyStrLt a c = true := by
  induction a generalizing b c with
  | nil =>
    cases c with
    | nil =>
      cases b with
      | nil => exact absurd h1 (by simp [pyStrLt])
      | cons y ys => exact absurd h2 (by simp [pyStrLt])
    | cons z zs => rfl
  | cons x xs ih =>
    cases b with
    | nil => exact absurd h1 (by simp [pyStrLt])
    | cons y ys =>
      cases c with
      | nil => exact absurd h2 (by simp [pyStrLt])
      | cons z zs =>
        unfold pyStrLt at h1 h2 ⊢
        by_cases hxy : x.toNat < y.toNat
        · by_cases hyz : y.toNat < z.toNat
          · rw [if_pos (by omega)]
          · rw [if_pos hxy] at h1
            rw [if_neg hyz] at h2
            by_cases hzy : z.toNat < y.toNat
            · rw [if_pos hzy] at h2
              exact absurd h2 (by simp)
            · have : y.toNat = z.toNat := by omega
              rw [if_pos (by omega)]
        · rw [if_neg hxy] at h1
          by_cases hyx : y.toNat < x.toNat
          · rw [if_pos hyx] at h1
            exact absurd h1 (by simp)
          · rw [if_neg hyx] at h1
            by_cases hyz : y.toNat < z.toNat
            · rw [if_pos (by omega)]
            · rw [if_neg hyz] at h2
              by_cases hzy : z.toNat < y.toNat
              · rw [if_pos hzy] at h2
                exact absurd h2 (by simp)
              · rw [if_neg hzy] at h2
                rw [if_neg (by omega), if_neg (by omega)]
                exact ih h1 h2

lemma pyStrLt_total (a b : List Char) :
    pyStrLt a b = true ∨ pyStrLt b a = true ∨ a = b := by
  induction a generalizing b with
  | nil =>
    cases b with
    | nil => right; right; rfl
    | cons y ys => left; rfl
  | cons x xs ih =>
    cases b with
    | nil => right; left; rfl
    | cons y ys =>
      unfold pyStrLt
      by_cases hxy : x.toNat < y.toNat
      · left; rw [if_pos hxy]
      · by_cases hyx : y.toNat < x.toNat
        · right; left; rw [if_pos hyx]
        · have hx : x = y := Char.ext (UInt32.ext (show x.toNat = y.toNat by omega))
          subst hx
          rcases ih ys with h | h | h
          · left
            rw [if_neg hxy, if_neg hyx]
            exact h
          · right; left
            rw [if_neg hxy, if_neg hyx]
            exact h
          · right; right
            rw [h]

/-- Strict comparison of the `heapq.nlargest` keys `(ratio, name)`:
smaller ratio, or equal ratio and lexicographically smaller name
(a Python tuple comparison).  The ratio comparison `2Mx/Tx < 2My/Ty` is
cross-multiplied. -/
def keyLt (word x y : List Char) : Prop :=
  ratioNum x word * ratioDen y word < ratioNum y word * ratioDen x word ∨
    (ratioNum x word * ratioDen y word = ratioNum y word * ratioDen x word ∧
      pyStrLt x y = true)

instance (word x y : List Char) : Decidable (keyLt word x y) := by
  unfold keyLt
  infer_instance

/-- The ratio as an exact rational, used only inside proofs. -/
noncomputable def rQ (word x : List Char) : ℚ :=
  (ratioNum x word : ℚ) / (ratioDen x word : ℚ)

lemma ratio_lt_iff (word x y : List Char) :
    ratioNum x word * ratioDen y word < ratioNum y word * ratioDen x word ↔
      rQ word x < rQ word y := by
  unfold rQ
  rw [div_lt_div_iff (by exact_mod_cast ratioDen_pos x word)
    (by exact_mod_cast ratioDen_pos y word)]
  exact_mod_cast Iff.rfl

lemma ratio_eq_iff (word x y : List Char) :
    ratioNum x word * ratioDen y word = ratioNum y word * ratioDen x word ↔
      rQ word x = rQ word y := by
  unfold rQ
  rw [div_eq_div_iff (Nat.cast_ne_zero.mpr (ratioDen_pos x word).ne')
    (Nat.cast_ne_zero.mpr (ratioDen_pos y word).ne')]
  exact_mod_cast Iff.rfl

lemma keyLt_irrefl (word x : List Char) : ¬ keyLt word x x := by
  intro h
  rcases h with h | ⟨_, hstr⟩
  · exact lt_irrefl _ h
  · rw [pyStrLt_irrefl] at hstr
    exact Bool.noConfusion hstr

lemma keyLt_asymm {word x y : List Char} (h : keyLt word x y) : ¬ keyLt word y x := by
  intro h2
  rcases h with h | ⟨heq, hstr⟩ <;> rcases h2 with h2 | ⟨heq2, hstr2⟩
  · omega
  · omega
  · omega
  · have := pyStrLt_trans hstr hstr2
    rw [pyStrLt_irrefl] at this
    exact Bool.noConfusion this

lemma keyLt_cotrans {word x y z : List Char} (h : keyLt word x z) :
    keyLt word x y ∨ keyLt word y z := by
  rcases h with hlt | ⟨heq, hstr⟩
  · rw [ratio_lt_iff] at hlt
    rcases lt_trichotomy (rQ word x) (rQ word y) with h1 | h1 | h1
    · exact Or.inl (Or.inl ((ratio_lt_iff word x y).mpr h1))
    · right
      left
      rw [ratio_lt_iff]
      rw [← h1]
      exact hlt
    · right
      left
      rw [ratio_lt_iff]
      exact lt_trans h1 hlt
  · rw [ratio_eq_iff] at heq
    rcases lt_trichotomy (rQ word x) (rQ word y) with h1 | h1 | h1
    · exact Or.inl (Or.inl ((ratio_lt_iff word x y).mpr h1))
    · rcases pyStrLt_total x y with h2 | h2 | h2
      · exact Or.inl (Or.inr ⟨(ratio_eq_iff word x y).mpr h1, h2⟩)
      · right
        right
        refine ⟨(ratio_eq_iff word y z).mpr (by rw [← h1, heq]), ?_⟩
        exact pyStrLt_trans h2 hstr
      · subst h2
        exact Or.inr (Or.inr ⟨(ratio_eq_iff word x z).mpr heq, hstr⟩)
    · right
      left
      rw [ratio_lt_iff]
      rw [← heq]
      exact h1

/-- The single element of `heapq.nlargest(1, qualified)` (by the key
order), scanning the qualified candidates. -/
def pickBest (word : List Char) : List (List Char) → Option (List Char)
  | [] => none
  | c :: cs =>
    match pickBest word cs with
    | none => some c
    | some d => if keyLt word c d then some d else some c

lemma pickBest_cons (word c : List Char) (cs : List (List Char)) :
    pickBest word (c :: cs) =
      match pickBest word cs with
      | none => some c
      | some d => if keyLt word c d then some d else some c := rfl

lemma pickBest_mem {word : List Char} {l : List (List Char)} {s : List Char}
    (h : pickBest word l = some s) : s ∈ l := by
  induction l with
  | nil => exact absurd h (by simp [pickBest])
  | cons c cs ih =>
    rw [pickBest_cons] at h
    cases hq : pickBest word cs with
    | none =>
      rw [hq] at h
      have h2 : some c = some s := h
      injection h2 with h2
      simp [h2.symm]
    | some d =>
      rw [hq] at h
      have h2 : (if keyLt word c d then some d else some c) = some s := h
      by_cases hk : keyLt word c d
      · rw [if_pos hk] at h2
        injection h2 with h2
        subst h2
        simp [ih hq]
      · rw [if_neg hk] at h2
        injection h2 with h2
        simp [h2.symm]

lemma pickBest_eq_none {word : List Char} {l : List (List Char)} :
    pickBest word l = none ↔ l = [] := by
  cases l with
  | nil => simp [pickBest]
  | cons c cs =>
    constructor
    · intro h
      exfalso
      rw [pickBest_cons] at h
      cases hq : pickBest word cs with
      | none =>
        rw [hq] at h
        exact Option.noConfusion (show (some c : Option (List Char)) = none from h)
      | some d =>
        rw [hq] at h
        have h2 : (if keyLt word c d then some d else some c) = none := h
        by_cases hk : keyLt word c d
        · rw [if_pos hk] at h2
          exact Option.noConfusion h2
        · rw [if_neg hk] at h2
          exact Option.noConfusion h2
    · intro h
      exact absurd h (by simp)

lemma pickBest_max {word : List Char} {l : List (List Char)} {s : List Char}
    (h : pickBest word l = some s) : ∀ t ∈ l, ¬ keyLt word s t := by
  induction l generalizing s with
  | nil => exact absurd h (by simp [pickBest])
  | cons c cs ih =>
    intro t ht
    rw [pickBest_cons] at h
    cases hq : pickBest word cs with
    | none =>
      rw [hq] at h
      have h2 : some c = some s := h
      injection h2 with h2
      subst h2
      have hcs : cs = [] := pickBest_eq_none.mp hq
      subst hcs
      rcases List.mem_singleton.mp ht with rfl
      exact keyLt_irrefl word t
    | some d =>
      rw [hq] at h
      have h2 : (if keyLt word c d then some d else some c) = some s := h
      rcases List.mem_cons.mp ht with rfl | ht
      · by_cases hk : keyLt word t d
        · rw [if_pos hk] at h2
          injection h2 with h2
          subst h2
          exact keyLt_asymm hk
        · rw [if_neg hk] at h2
          injection h2 with h2
          subst h2
          exact keyLt_irrefl word t
      · by_cases hk : keyLt word c d
        · rw [if_pos hk] at h2
          injection h2 with h2
          subst h2
          exact ih hq t ht
        · rw [if_neg hk] at h2
          injection h2 with h2
          subst h2
          intro hct
          rcases keyLt_cotrans (y := d) hct with h3 | h3
          · exact hk h3
          · exact ih hq t ht h3

/-- `get_close_matches(word, names, n=1, cutoff=0.6)` reduced to its
single best element: among the candidates passing the cutoff, the
maximum under the `(ratio, name)` key (`heapq.nlargest(1, ...)`). -/
def get_close_matches1 (word : List Char) (names : List (List Char)) :
    Option (List Char) :=
  pickBest word (names.filter (fun n => cutoffOK word n))

/-- Model of `CommandHandler._suggest_command` (leading underscore
dropped): the single close match over the available command names, or
`none` where the Python code raises `SuggestionFailed`. -/
def CommandHandler.suggest_command (names : List (List Char)) (word : List Char) :
    Option (List Char) :=
  get_close_matches1 word names

/-- Observable outcome of `handle_invalid_command`. -/
inductive InvalidOutcome where
  | suggestion (name : List Char)
  | helpListing
  deriving DecidableEq, Repr

/-- Model of `CommandHandler.handle_invalid_command`: print the
suggestion when one is found; on `SuggestionFailed`, print not-found and
execute the built-in help listing. -/
def CommandHandler.handle_invalid_command (names : List (List Char)) (word : List Char) :
    InvalidOutcome :=
  match CommandHandler.suggest_command names word with
  | some s => .suggestion s
  | none => .helpListing

def pyInsert (x : List Char) : List (List Char) → List (List Char)
  | [] => [x]
  | y :: ys => if pyStrLt y x then y :: pyInsert x ys else x :: y :: ys

/-- Model of Python `sorted` on the command names (`get_commands` returns
`sorted(self._commands.keys())`); an insertion sort by the string
order. -/
def pySorted : List (List Char) → List (List Char)
  | [] => []
  | x :: xs => pyInsert x (pySorted xs)

/-- The command names registered at startup: the built-in `help` entry
plus one entry per module of `src/command/commands` (each module defines
a `Command` subclass and is registered under its module file name). -/
def commandNames : List (List Char) :=
  ["help".data, "add".data, "clear_history".data, "deletehistory".data, "divide".data,
   "exit".data, "greet".data, "history".data, "multiply".data, "subtract".data]

set_option maxRecDepth 100000 in
/-- C5: against the application's registry, the unknown input `"ad"`
yields the suggestion `"add"`, and `"zzz9"` yields no suggestion and
falls back to the help listing; in general the handler suggests a
registered name exactly when one passes the 0.6 ratio cutoff, and the
suggested name passes the cutoff and is maximal under the
`(ratio, name)` key among all qualifying names. -/
theorem C5_suggestion_threshold :
    (CommandHandler.handle_invalid_command (pySorted commandNames) "ad".data =
      .suggestion "add".data) ∧
    (CommandHandler.handle_invalid_command (pySorted commandNames) "zzz9".data =
      .helpListing) ∧
    (∀ (names : List (List Char)) (word s : List Char),
      CommandHandler.suggest_command names word = some s →
      s ∈ names ∧ cutoffOK word s = true ∧
        ∀ t ∈ names, cutoffOK word t = true → ¬ keyLt word s t) ∧
    (∀ (names : List (List Char)) (word : List Char),
      CommandHandler.suggest_command names word = none →
      ∀ t ∈ names, cutoffOK word t = false) := by
  refine ⟨by decide, by decide, ?_, ?_⟩
  · intro names word s h
    unfold CommandHandler.suggest_command get_close_matches1 at h
    have hmem := pickBest_mem h
    have hmax := pickBest_max h
    rw [List.mem_filter] at hmem
    refine ⟨hmem.1, by simpa using hmem.2, ?_⟩
    intro t ht hcut
    exact hmax t (List.mem_filter.mpr ⟨ht, by simpa using hcut⟩)
  · intro names word h
    unfold CommandHandler.suggest_command get_close_matches1 at h
    have hnil := pickBest_eq_none.mp h
    intro t ht
    by_contra hcut
    have : t ∈ names.filter (fun n => cutoffOK word n) :=
      List.mem_filter.mpr ⟨ht, by simpa using hcut⟩
    rw [hnil] at this
    exact List.not_mem_nil t this

set_option maxRecDepth 100000 in
/-- Witness for C5's general clauses at a concrete input: instantiated
for the registry and the input `"ad"`, with the suggestion
hypothesis discharged by computation. -/
theorem C5_suggestion_threshold_witness :
    "add".data ∈ pySorted commandNames ∧ cutoffOK "ad".data "add".data = true :=
  ⟨(C5_suggestion_threshold.2.2.1 (pySorted commandNames) "ad".data "add".data
      (by decide)).1,
   (C5_suggestion_threshold.2.2.1 (pySorted commandNames) "ad".data "add".data
      (by decide)).2.1⟩

/-- A registered command, modelled by the outcome of its `execute()`:
normal return, or the exception it raises. -/
structure PyCommand where
  execOutcome : Except PyErr Unit

/-- Observable result of `CommandHandler.handle`. -/
inductive HandleResult where
  | executed
  | fallback (o : InvalidOutcome)
  | raised (e : PyErr)
  deriving Repr

/-- Model of `self._commands.get(command_name, None)` (dict keys are
unique, so first-match association lookup is faithful). -/
def lookupCommand (reg : List (List Char × PyCommand)) (name : List Char) :
    Option PyCommand :=
  match reg with
  | [] => none
  | (n, c) :: rest => if n = name then some c else lookupCommand rest name

/-- Model of `CommandHandler.handle`: look the name up with
`.get(name, None)` and call `command.execute()` inside
`try/except AttributeError`.  A failed lookup raises `AttributeError` at
`None.execute()`; an `AttributeError` raised inside a registered
command's `execute` is caught by the same clause; both run
`handle_invalid_command` over the sorted registry names.  Any other
exception escapes `handle`. -/
def CommandHandler.handle (reg : List (List Char × PyCommand)) (name : List Char) :
    HandleResult :=
  match (match lookupCommand reg name with
         | none => Except.error PyErr.attributeError
         | some c => c.execOutcome) with
  | .ok _ => .executed
  | .error .attributeError =>
    .fallback (CommandHandler.handle_invalid_command (pySorted (reg.map Prod.fst)) name)
  | .error e => .raised e

/-- C10: the handler turns every `AttributeError` raised while executing
a command into the command-not-found path.  A registered command whose
`execute()` raises `AttributeError` and an unregistered name both end in
the same suggestion-or-help fallback, computed over the same registry
names — so the two cases are indistinguishable to the user. -/
theorem C10_attribute_error_as_unknown :
    (∀ (reg : List (List Char × PyCommand)) (name : List Char) (c : PyCommand),
      lookupCommand reg name = some c → c.execOutcome = .error .attributeError →
      CommandHandler.handle reg name =
        .fallback (CommandHandler.handle_invalid_command
          (pySorted (reg.map Prod.fst)) name)) ∧
    (∀ (reg : List (List Char × PyCommand)) (name : List Char),
      lookupCommand reg name = none →
      CommandHandler.handle reg name =
        .fallback (CommandHandler.handle_invalid_command
          (pySorted (reg.map Prod.fst)) name)) := by
  constructor
  · intro reg name c hlook hexec
    unfold CommandHandler.handle
    rw [hlook]
    show (match c.execOutcome with
          | .ok _ => HandleResult.executed
          | .error .attributeError =>
            HandleResult.fallback (CommandHandler.handle_invalid_command
              (pySorted (reg.map Prod.fst)) name)
          | .error e => HandleResult.raised e) =
      HandleResult.fallback (CommandHandler.handle_invalid_command
        (pySorted (reg.map Prod.fst)) name)
    rw [hexec]
  · intro reg name hlook
    unfold CommandHandler.handle
    rw [hlook]

/-- Witness for C10: a one-command registry whose `broken` command raises
`AttributeError` internally; handling `broken` lands in the fallback, and
handling the unregistered name `nosuch` lands in the same kind of
fallback. -/
theorem C10_attribute_error_as_unknown_witness :
    CommandHandler.handle [("broken".data, ⟨.error .attributeError⟩)] "broken".data =
      .fallback (CommandHandler.handle_invalid_command
        (pySorted (List.map Prod.fst
          [("broken".data, (⟨.error .attributeError⟩ : PyCommand))])) "broken".data) ∧
    CommandHandler.handle [("broken".data, ⟨.error .attributeError⟩)] "nosuch".data =
      .fallback (CommandHandler.handle_invalid_command
        (pySorted (List.map Prod.fst
          [("broken".data, (⟨.error .attributeError⟩ : PyCommand))])) "nosuch".data) :=
  ⟨C10_attribute_error_as_unknown.1 [("broken".data, ⟨.error .attributeError⟩)]
      "broken".data ⟨.error .attributeError⟩ rfl rfl,
   C10_attribute_error_as_unknown.2 [("broken".data, ⟨.error .attributeError⟩)]
      "nosuch".data rfl⟩

lemma init_ok_operands {opName : List Char} {args : List Decimal} {freshId : List Char}
    {now : DateTime} {c : Calculation}
    (h : Calculation.init opName args freshId now = .ok c) :
    c.operands = args ∧ args ≠ [] := by
  unfold Calculation.init at h
  by_cases hargs : args.isEmpty
  · rw [if_pos hargs] at h
    exact absurd h (by simp)
  · rw [if_neg hargs] at h
    injection h with h
    subst h
    refine ⟨rfl, ?_⟩
    intro hnil
    subst hnil
    exact hargs rfl

/-- C8: the `Calculation` constructor raises (`ValueError`, the spec's
`InvalidOperandsError`) exactly when zero operands are supplied; with at
least one operand it succeeds and stores the operands as given; and every
calculation produced by decoding has a nonempty operand list (the decoded
operands pass through the same constructor, and `split(",")` never yields
an empty list). -/
theorem C8_operands_nonempty :
    (∀ (opName freshId : List Char) (now : DateTime),
      Calculation.init opName [] freshId now = .error .valueError) ∧
    (∀ (opName freshId : List Char) (now : DateTime) (args : List Decimal), args ≠ [] →
      Calculation.init opName args freshId now =
        .ok { id := freshId, operation_name := opName, operands := args,
              result := none, timestamp := now }) ∧
    (∀ (d : FlatRecord) (c : Calculation), Calculation.from_dict d = .ok c →
      c.operands ≠ []) := by
  refine ⟨fun opName freshId now => rfl, ?_, ?_⟩
  · intro opName freshId now args hargs
    unfold Calculation.init
    rw [if_neg (by simpa using isEmpty_false_of_ne_nil hargs)]
  · intro d c h
    unfold Calculation.from_dict at h
    split at h
    · exact Except.noConfusion h
    · split at h
      · split at h
        · exact Except.noConfusion h
        · next c0 heq =>
          have h0 := init_ok_operands heq
          split at h
          · split at h
            · injection h with h
              subst h
              simpa [h0.1] using h0.2
            · exact Except.noConfusion h
          · split at h
            · split at h
              · injection h with h
                subst h
                simpa [h0.1] using h0.2
              · exact Except.noConfusion h
            · exact Except.noConfusion h
      · exact Except.noConfusion h

/-- Witness for C8: one operand succeeds, and decoding a concrete record
yields a nonempty operand list. -/
theorem C8_operands_nonempty_witness :
    Calculation.init "add".data [⟨false, 2, 0⟩] "i".data ⟨2024, 1, 1, 0, 0, 0, 0⟩ =
      .ok { id := "i".data, operation_name := "add".data, operands := [⟨false, 2, 0⟩],
            result := none, timestamp := ⟨2024, 1, 1, 0, 0, 0, 0⟩ } ∧
    (⟨"a".data, "add".data, [⟨false, 2, 0⟩], none, ⟨2024, 5, 6, 7, 8, 9, 0⟩⟩ :
      Calculation).operands ≠ [] :=
  ⟨C8_operands_nonempty.2.1 "add".data "i".data ⟨2024, 1, 1, 0, 0, 0, 0⟩
      [⟨false, 2, 0⟩] (by decide),
   C8_operands_nonempty.2.2
      ⟨"a".data, "add".data, "2".data, "".data, "2024-05-06T07:08:09".data⟩
      ⟨"a".data, "add".data, [⟨false, 2, 0⟩], none, ⟨2024, 5, 6, 7, 8, 9, 0⟩⟩ rfl⟩
